import Mathlib

/-!
Verification of the breakIP address-aggregation program (src/breakIP.py).

The Python source is shallowly embedded below.  Machine integers are
modelled as `Nat` (Python's unbounded nonnegative ints restricted to the
values the program produces); strings are Lean `String`s, whose logical
model is a list of characters, matching Python's sequence-of-characters
strings for the ASCII data this program handles.  Fallible Python code
(functions that can raise) is modelled with `Option`.
-/

set_option maxRecDepth 20000
set_option synthInstance.maxSize 1000

attribute [local semireducible] Rat.mul
attribute [local semireducible] Rat.inv

/-! ## Python primitives used by the source -/

/-- Model of Python's `str.split('.')`, working on the character list of a
string: splits at every `'.'`, keeping empty components, and returns the
list of components.  `"".split('.') == ['']`, `"a.".split('.') == ['a','']`,
exactly as this function computes. -/
def splitDot : List Char → List (List Char)
  | [] => [[]]
  | c :: cs =>
    if c = '.' then [] :: splitDot cs
    else
      match splitDot cs with
      | [] => [[c]]
      | g :: gs => (c :: g) :: gs

/-- Model of Python's `int(s)` on the decimal numerals this program handles:
succeeds exactly on nonempty all-digit strings, returning their decimal
value; on anything else (empty or containing a non-digit) it fails, as
Python's `int` raises `ValueError` there.  (Python's `int` additionally
accepts signs, surrounding whitespace and `_` separators; no such strings
arise in the claims, and this model rejects them.)  No range check of any
kind is performed, matching the source. -/
def pyInt? (cs : List Char) : Option Nat :=
  if !cs.isEmpty && cs.all Char.isDigit then
    some (cs.foldl (fun a c => a * 10 + (c.toNat - 48)) 0)
  else none

/-- Model of forcing a `list(map(...))` of fallible conversions: Python's
`list(map(int, xs))` raises as soon as one element fails; here the whole
result collapses to `none` in that case. -/
def allSome : List (Option Nat) → Option (List Nat)
  | [] => some []
  | none :: _ => none
  | some v :: rest =>
    match allSome rest with
    | some vs => some (v :: vs)
    | none => none

/-- Model of Python's `min` on a list of ints.  Python raises on an empty
list; every call site in the source guarantees nonemptiness, and the empty
case is given the junk value 0 (never relied upon by any theorem). -/
def pyMin : List Nat → Nat
  | [] => 0
  | x :: xs => xs.foldl Nat.min x

/-- Model of Python's `~m & 0xFFFFFFFF` on a machine-word value: Python's
`~` on unbounded ints is `-m - 1`, and `& 0xFFFFFFFF` of that (negative)
number is its value modulo `2^32`. -/
def pyNot32 (m : Nat) : Nat :=
  ((-(m : Int) - 1) % 4294967296).toNat

/-! ## AddressCodec (src/breakIP.py lines 1-8) -/

/-- `ip_to_int(ip)`: split on `'.'`, convert every component with `int`,
then compose components 0..3 big-endian with shifts and ors, ignoring any
further components.  Fails (raises in Python) when a component is not a
numeral or when there are fewer than four components. -/
def ip_to_int (ip : String) : Option Nat :=
  match allSome ((splitDot ip.data).map pyInt?) with
  | none => none
  | some (o0 :: o1 :: o2 :: o3 :: _) =>
    some ((((o0 <<< 24) ||| (o1 <<< 16)) ||| (o2 <<< 8)) ||| o3)
  | some _ => none

/-- `int_to_ip(num)`: renders the four bytes of `num` in decimal, joined
with dots (the f-string in the source). -/
def int_to_ip (num : Nat) : String :=
  toString ((num >>> 24) &&& 0xFF) ++ "." ++ toString ((num >>> 16) &&& 0xFF) ++ "." ++
    toString ((num >>> 8) &&& 0xFF) ++ "." ++ toString (num &&& 0xFF)

/-- The claims' notion of a well-formed dotted quad (spec section 4.1):
exactly four dot-separated numeric components, each with value at
most 255.  (This is a spec-side predicate used to state the claims; it is
not part of the source, which never validates its input.) -/
def wellFormedQuad (s : String) : Bool :=
  (splitDot s.data).length == 4 &&
    (splitDot s.data).all (fun c =>
      match pyInt? c with
      | some v => decide (v ≤ 255)
      | none => false)

/-- A canonical decimal octet: the exact decimal rendering of a value of
at most 255 — no leading zeros, no sign, no whitespace. -/
def canonicalOctet (cs : List Char) : Bool :=
  match pyInt? cs with
  | some v => decide (v ≤ 255) && ((toString v).data == cs)
  | none => false

/-- A canonical dotted quad, the spec's "canonical textual form" of an
Address (spec section 3): exactly four dot-separated canonical octets. -/
def canonicalQuad (s : String) : Bool :=
  (splitDot s.data).length == 4 && (splitDot s.data).all canonicalOctet

/-! ## SubnetMath (src/breakIP.py lines 10-14) -/

/-- `calculate_subnet_size(prefix_len)`: `2^(32 - prefix_len)` for a prefix
length in range, 0 otherwise.  (The source also guards `prefix_len < 0`,
impossible for `Nat`.) -/
def calculate_subnet_size (prefix_len : Nat) : Nat :=
  if prefix_len > 32 then 0 else 2 ^ (32 - prefix_len)

/-- The subnet mask computed in `find_min_subnet`:
`(0xFFFFFFFF << (32 - prefix_len)) & 0xFFFFFFFF`. -/
def subnetMask (prefix_len : Nat) : Nat :=
  (0xFFFFFFFF <<< (32 - prefix_len)) &&& 0xFFFFFFFF

/-- `network = min_ip & mask` as computed in `find_min_subnet`. -/
def networkOf (min_ip prefix_len : Nat) : Nat :=
  min_ip &&& subnetMask prefix_len

/-- `broadcast = network | (~mask & 0xFFFFFFFF)` as computed in
`find_min_subnet`. -/
def broadcastOf (min_ip prefix_len : Nat) : Nat :=
  networkOf min_ip prefix_len ||| pyNot32 (subnetMask prefix_len)

/-- The containment test of the search loop:
`all(network <= ip <= broadcast for ip in ips_int)`. -/
def coversAll (ips_int : List Nat) (min_ip prefix_len : Nat) : Bool :=
  ips_int.all (fun ip =>
    decide (networkOf min_ip prefix_len ≤ ip ∧ ip ≤ broadcastOf min_ip prefix_len))

/-! ## MinimalCoverFinder (src/breakIP.py lines 16-46) -/

/-- The descending sequence of prefix lengths tried by the `while` loop of
`find_min_subnet`: `32, 31, ..., min_prefix` (empty when the floor exceeds
32, exactly as the Python loop body never runs then). -/
def candidatePrefixes ( min_prefix : Nat) : List Nat :=
  (List.range (33 - min_prefix)).map (fun i => 32 - i)

/-- `find_min_subnet(ips_int, min_prefix)`: starting from prefix length 32
and counting down to the floor, return for the first prefix length whose
aligned block at the minimum address contains every address the tuple
`(cidr, start_ip, end_ip, prefix_len)`; if none passes, fall back to the
floor prefix unconditionally.  The descending `while` loop is rendered as
`find?` over the descending candidate list; the loop body and the fallback
compute network and broadcast by the same formulas. -/
def find_min_subnet (ips_int : List Nat) ( min_prefix : Nat) : String × String × String × Nat :=
  match (candidatePrefixes min_prefix).find? (fun p => coversAll ips_int (pyMin ips_int) p) with
  | some p =>
    (int_to_ip (networkOf (pyMin ips_int) p) ++ "/" ++ toString p,
      int_to_ip (networkOf (pyMin ips_int) p), int_to_ip (broadcastOf (pyMin ips_int) p), p)
  | none =>
    (int_to_ip (networkOf (pyMin ips_int) min_prefix) ++ "/" ++ toString min_prefix,
      int_to_ip (networkOf (pyMin ips_int) min_prefix),
      int_to_ip (broadcastOf (pyMin ips_int) min_prefix), min_prefix)

/-! ## Partitioner (src/breakIP.py lines 48-89) -/

/-- One aggregated-subnet record, the tuple
`(cidr, start_ip, end_ip, current_ips, total_ips, ratio)` appended by
`split_subnets`.  The occupancy percentage (a Python float) is modelled as
a rational; for the magnitudes this program produces — a small integer
divided by a power of two, times 100 — Python's float arithmetic is exact,
so the models agree. -/
abbrev AggRecord := String × String × String × List String × Nat × ℚ

/-- Build the aggregated record for one group, as the `else` branch of the
loop in `split_subnets` does. -/
def buildAgg (current_group : List Nat) ( min_prefix : Nat) : AggRecord :=
  match find_min_subnet current_group min_prefix with
  | (cidr, start_ip, end_ip, prefix_len) =>
    let current_ips := current_group.map int_to_ip
    let total_ips := calculate_subnet_size prefix_len
    (cidr, start_ip, end_ip, current_ips, total_ips,
      (current_ips.length : ℚ) / (total_ips : ℚ) * 100)

/-- The `while ips_int_sorted:` loop of `split_subnets`.  Each iteration
takes the head of the remaining sorted list as seed, accumulates the
immediately following addresses sharing the seed's /24 network (stopping at
the first that does not), classifies the group as a singleton or an
aggregate, and removes every occurrence of the group's values from the
remaining list.  Since every iteration strictly shrinks the list, the loop
is rendered with a fuel counter initialised to the list length. -/
def splitLoopF : Nat → List Nat → Nat → List AggRecord × List String
  | 0, _, _ => ([], [])
  | _, [], _ => ([], [])
  | fuel + 1, current_ip :: rest, min_prefix =>
    let current_24 := current_ip &&& 0xFFFFFF00
    let current_group := current_ip :: rest.takeWhile (fun ip => (ip &&& 0xFFFFFF00) == current_24)
    let remaining := (current_ip :: rest).filter (fun ip => !(current_group.contains ip))
    let result := splitLoopF fuel remaining min_prefix
    if current_group.length == 1 then
      (result.1, int_to_ip current_ip :: result.2)
    else
      (buildAgg current_group min_prefix :: result.1, result.2)

/-- `split_subnets(ips, min_prefix)`: convert all strings to ints (Python
raises on a malformed one: `none` here), sort ascending (Python's `sorted`;
modelled with insertion sort, which computes the same ascending ordering),
and run the grouping loop.  Returns the aggregate records and the
singleton addresses in the order produced. -/
def split_subnets (ips : List String) ( min_prefix : Nat) : Option (List AggRecord × List String) :=
  match allSome (ips.map ip_to_int) with
  | none => none
  | some ips_int =>
    some (splitLoopF ips_int.length (ips_int.insertionSort (· ≤ ·)) min_prefix)

/-- The sequence of groups the `split_subnets` loop consumes, extracted by
the same seed / contiguous-run / removal steps as `splitLoopF`. -/
def greedyGroupsF : Nat → List Nat → List (List Nat)
  | 0, _ => []
  | _, [] => []
  | fuel + 1, current_ip :: rest =>
    let current_24 := current_ip &&& 0xFFFFFF00
    let current_group := current_ip :: rest.takeWhile (fun ip => (ip &&& 0xFFFFFF00) == current_24)
    current_group :: greedyGroupsF fuel ((current_ip :: rest).filter (fun ip => !(current_group.contains ip)))

/-- Assembles the aggregate records from a group sequence: groups of
length one are skipped, the rest are aggregated — the classification the
loop in `split_subnets` applies. -/
def assembleAggs (gs : List (List Nat)) ( min_prefix : Nat) : List AggRecord :=
  gs.filterMap (fun g => if g.length == 1 then none else some (buildAgg g min_prefix))

/-- Assembles the singleton entries from a group sequence: groups of
length one are rendered, the rest are skipped. -/
def assembleSingles (gs : List (List Nat)) : List String :=
  gs.filterMap (fun g =>
    match g with
    | [x] => some (int_to_ip x)
    | _ => none)

/-- Spec-side definition (claim C5): the global group-by /24 partition of a
list — one group per distinct /24 network value, in order of appearance,
each group holding every element of the list with that /24 network.
(`List.dedup` keeps the last occurrence of each duplicated class; on the
sorted lists this definition is compared on, equal classes are contiguous,
so the classes are listed in ascending order either way.) -/
def groupBy24Global (l : List Nat) : List (List Nat) :=
  ((l.map (fun ip => ip &&& 0xFFFFFF00)).dedup).map
    (fun c => l.filter (fun ip => (ip &&& 0xFFFFFF00) == c))

/-! ## Arithmetic facts about the bit-level subnet computations -/

/-- Shifts distribute over bitwise or. -/
lemma shiftRight_lor_distrib (a b k : Nat) : (a ||| b) >>> k = (a >>> k) ||| (b >>> k) := by
  apply Nat.eq_of_testBit_eq
  intro i
  simp [Nat.testBit_lor, Nat.testBit_shiftRight]

/-- Bitwise and with a shifted block of ones extracts a digit field. -/
lemma and_ones_shift (x a b : Nat) :
    x &&& ((2 ^ a - 1) <<< b) = ((x >>> b) % 2 ^ a) <<< b := by
  apply Nat.eq_of_testBit_eq
  intro i
  simp only [Nat.testBit_land, Nat.testBit_shiftLeft, Nat.testBit_two_pow_sub_one,
    Nat.testBit_mod_two_pow, Nat.testBit_shiftRight, ge_iff_le]
  by_cases hbi : b ≤ i
  · have : b + (i - b) = i := by omega
    rw [this]
    by_cases hia : i - b < a <;> simp [hbi, hia, Bool.and_comm]
  · simp [hbi]

/-- Bitwise or of a multiple of `2^k` with a value below `2^k` is addition. -/
lemma mul_pow_lor_eq_add {y k : Nat} (x : Nat) (h : y < 2 ^ k) :
    (x * 2 ^ k) ||| y = x * 2 ^ k + y := by
  have hk : (0:Nat) < 2 ^ k := pow_pos (by norm_num) k
  have hmod : ((x * 2 ^ k) ||| y) % 2 ^ k = y := by
    rw [← Nat.and_pow_two_sub_one_eq_mod, Nat.and_distrib_right,
      Nat.and_pow_two_sub_one_eq_mod, Nat.and_pow_two_sub_one_eq_mod,
      Nat.mul_mod_left, Nat.mod_eq_of_lt h]
    simp
  have hdiv : ((x * 2 ^ k) ||| y) / 2 ^ k = x := by
    rw [← Nat.shiftRight_eq_div_pow, shiftRight_lor_distrib,
      Nat.shiftRight_eq_div_pow, Nat.shiftRight_eq_div_pow,
      Nat.mul_div_cancel _ hk, Nat.div_eq_of_lt h]
    simp
  have hsum := Nat.div_add_mod ((x * 2 ^ k) ||| y) (2 ^ k)
  rw [hdiv, hmod, Nat.mul_comm (2 ^ k) x] at hsum
  omega

/-- The loop's mask value in closed arithmetic form. -/
lemma subnetMask_eq {p : Nat} (hp : p ≤ 32) :
    subnetMask p = 2 ^ 32 - 2 ^ (32 - p) := by
  have hk : 2 ^ (32 - p) ≤ 2 ^ 32 := Nat.pow_le_pow_right (by norm_num) (by omega)
  have h1 : (0:Nat) < 2 ^ (32 - p) := pow_pos (by norm_num) _
  have key : (2 ^ 32 - 1) * 2 ^ (32 - p) =
      (2 ^ 32 - 2 ^ (32 - p)) + (2 ^ (32 - p) - 1) * 2 ^ 32 := by
    have h32 : (2:Nat) ^ 32 = 4294967296 := by norm_num
    rw [h32] at hk ⊢
    generalize 2 ^ (32 - p) = B at *
    ring_nf
    omega
  show (0xFFFFFFFF <<< (32 - p)) &&& 0xFFFFFFFF = _
  have hff : (0xFFFFFFFF : Nat) = 2 ^ 32 - 1 := by norm_num
  rw [hff, Nat.shiftLeft_eq, Nat.and_pow_two_sub_one_eq_mod, key,
    Nat.add_mul_mod_self_right, Nat.mod_eq_of_lt (by omega)]

/-- The Python complement-and-mask `~m & 0xFFFFFFFF` in arithmetic form. -/
lemma pyNot32_eq {m : Nat} (h : m < 4294967296) : pyNot32 m = 4294967295 - m := by
  show ((-(m : Int) - 1) % 4294967296).toNat = _
  omega

/-- The network address computed by the loop, in arithmetic form: the
minimum address rounded down to a multiple of the block size. -/
lemma networkOf_eq {min_ip p : Nat} (h : min_ip < 2 ^ 32) (hp : p ≤ 32) :
    networkOf min_ip p = 2 ^ (32 - p) * (min_ip / 2 ^ (32 - p)) := by
  have hsplit : (2:Nat) ^ p * 2 ^ (32 - p) = 2 ^ 32 := by
    rw [← pow_add]
    congr 1
    omega
  have hmask : subnetMask p = (2 ^ p - 1) <<< (32 - p) := by
    rw [subnetMask_eq hp, Nat.shiftLeft_eq, Nat.sub_mul, one_mul, hsplit]
  show min_ip &&& subnetMask p = _
  rw [hmask, and_ones_shift, Nat.shiftLeft_eq, Nat.shiftRight_eq_div_pow]
  have hsplit2 : (2:Nat) ^ (32 - p) * 2 ^ p = 2 ^ 32 := by
    rw [Nat.mul_comm]
    exact hsplit
  have hlt : min_ip / 2 ^ (32 - p) < 2 ^ p := by
    apply Nat.div_lt_of_lt_mul
    omega
  rw [Nat.mod_eq_of_lt hlt, Nat.mul_comm]

/-- The broadcast address computed by the loop, in arithmetic form: the
top of the aligned block containing the minimum address. -/
lemma broadcastOf_eq {min_ip p : Nat} (h : min_ip < 2 ^ 32) (hp : p ≤ 32) :
    broadcastOf min_ip p = 2 ^ (32 - p) * (min_ip / 2 ^ (32 - p)) + (2 ^ (32 - p) - 1) := by
  have h1 : (0:Nat) < 2 ^ (32 - p) := pow_pos (by norm_num) _
  have hk : (2:Nat) ^ (32 - p) ≤ 2 ^ 32 := Nat.pow_le_pow_right (by norm_num) (by omega)
  have h32 : (2:Nat) ^ 32 = 4294967296 := by norm_num
  have hmask_lt : subnetMask p < 4294967296 := by
    rw [subnetMask_eq hp]
    omega
  have hnot : pyNot32 (subnetMask p) = 2 ^ (32 - p) - 1 := by
    rw [pyNot32_eq hmask_lt, subnetMask_eq hp]
    omega
  show networkOf min_ip p ||| pyNot32 (subnetMask p) = _
  rw [hnot, networkOf_eq h hp, Nat.mul_comm (2 ^ (32 - p)) (min_ip / 2 ^ (32 - p)),
    mul_pow_lor_eq_add _ (by omega), Nat.mul_comm (min_ip / 2 ^ (32 - p)) (2 ^ (32 - p))]

/-! ## Decimal rendering and parsing facts -/

/-- Parsing inverts decimal rendering for byte-sized values (established by
evaluation over all 256 byte values). -/
lemma pyInt_toString_byte : ∀ n < 256, pyInt? (toString n).data = some n := by decide

/-- The decimal rendering of a byte value contains no dot. -/
lemma toString_byte_no_dot : ∀ n < 256, '.' ∉ (toString n).data := by decide

/-- The decimal rendering of a prefix length (at most 32) also parses back,
used for the CIDR suffix. -/
lemma and_255_lt (x : Nat) : x &&& 255 < 256 := by
  have h : (255 : Nat) = 2 ^ 8 - 1 := by norm_num
  rw [h, Nat.and_pow_two_sub_one_eq_mod]
  exact Nat.mod_lt _ (by norm_num)

/-- `splitDot` never produces the empty list of components. -/
lemma splitDot_ne_nil (cs : List Char) : splitDot cs ≠ [] := by
  induction cs with
  | nil => simp [splitDot]
  | cons c cs ih =>
    simp only [splitDot]
    by_cases h : c = '.'
    · simp [h]
    · simp only [if_neg h]
      cases hs : splitDot cs <;> simp

/-- A dot-free string is a single component. -/
lemma splitDot_no_dot {cs : List Char} (h : '.' ∉ cs) : splitDot cs = [cs] := by
  induction cs with
  | nil => rfl
  | cons c cs ih =>
    have hc : ¬ c = '.' := by
      intro hc
      exact h (by simp [hc])
    have hcs : '.' ∉ cs := fun hm => h (List.mem_cons_of_mem _ hm)
    simp only [splitDot, if_neg hc, ih hcs]

/-- Splitting at an explicit dot after a dot-free chunk peels one component. -/
lemma splitDot_append {xs ys : List Char} (h : '.' ∉ xs) :
    splitDot (xs ++ '.' :: ys) = xs :: splitDot ys := by
  induction xs with
  | nil => simp [splitDot]
  | cons c cs ih =>
    have hc : ¬ c = '.' := by
      intro hc
      exact h (by simp [hc])
    have hcs : '.' ∉ cs := fun hm => h (List.mem_cons_of_mem _ hm)
    have step : splitDot ((c :: cs) ++ '.' :: ys) =
        match splitDot (cs ++ '.' :: ys) with
        | [] => [[c]]
        | g :: gs => (c :: g) :: gs := by
      rw [List.cons_append]
      simp only [splitDot, if_neg hc]
    rw [step, ih hcs]

/-- The character list underlying `int_to_ip`. -/
lemma int_to_ip_data (num : Nat) :
    (int_to_ip num).data =
      (toString ((num >>> 24) &&& 0xFF)).data ++ '.' ::
        ((toString ((num >>> 16) &&& 0xFF)).data ++ '.' ::
          ((toString ((num >>> 8) &&& 0xFF)).data ++ '.' :: (toString (num &&& 0xFF)).data)) := by
  have hdot : ("." : String).data = ['.'] := rfl
  show ((((((toString ((num >>> 24) &&& 0xFF) ++ ".") ++ toString ((num >>> 16) &&& 0xFF)) ++ ".") ++
      toString ((num >>> 8) &&& 0xFF)) ++ ".") ++ toString (num &&& 0xFF)).data = _
  simp [String.data_append, hdot]

/-- Parsing a rendered address: the splitter recovers the four byte
components and the parser recombines them. -/
lemma ip_to_int_int_to_ip {a : Nat} (h : a < 2 ^ 32) : ip_to_int (int_to_ip a) = some a := by
  have h24 := and_255_lt (a >>> 24)
  have h16 := and_255_lt (a >>> 16)
  have h8 := and_255_lt (a >>> 8)
  have h0 := and_255_lt a
  show (match allSome ((splitDot (int_to_ip a).data).map pyInt?) with
    | none => none
    | some (o0 :: o1 :: o2 :: o3 :: _) =>
      some ((((o0 <<< 24) ||| (o1 <<< 16)) ||| (o2 <<< 8)) ||| o3)
    | some _ => none) = some a
  rw [int_to_ip_data, splitDot_append (toString_byte_no_dot _ h24),
    splitDot_append (toString_byte_no_dot _ h16),
    splitDot_append (toString_byte_no_dot _ h8),
    splitDot_no_dot (toString_byte_no_dot _ h0)]
  simp only [List.map, allSome, pyInt_toString_byte _ h24, pyInt_toString_byte _ h16,
    pyInt_toString_byte _ h8, pyInt_toString_byte _ h0]
  have e24 : (a >>> 24) &&& 0xFF = a / 2 ^ 24 % 2 ^ 8 := by
    have h255 : (0xFF : Nat) = 2 ^ 8 - 1 := by norm_num
    rw [h255, Nat.and_pow_two_sub_one_eq_mod, Nat.shiftRight_eq_div_pow]
  have e16 : (a >>> 16) &&& 0xFF = a / 2 ^ 16 % 2 ^ 8 := by
    have h255 : (0xFF : Nat) = 2 ^ 8 - 1 := by norm_num
    rw [h255, Nat.and_pow_two_sub_one_eq_mod, Nat.shiftRight_eq_div_pow]
  have e8 : (a >>> 8) &&& 0xFF = a / 2 ^ 8 % 2 ^ 8 := by
    have h255 : (0xFF : Nat) = 2 ^ 8 - 1 := by norm_num
    rw [h255, Nat.and_pow_two_sub_one_eq_mod, Nat.shiftRight_eq_div_pow]
  have e0 : a &&& 0xFF = a % 2 ^ 8 := by
    have h255 : (0xFF : Nat) = 2 ^ 8 - 1 := by norm_num
    rw [h255, Nat.and_pow_two_sub_one_eq_mod]
  rw [e24, e16, e8, e0, Nat.shiftLeft_eq, Nat.shiftLeft_eq, Nat.shiftLeft_eq,
    Nat.lor_assoc, Nat.lor_assoc]
  have s8 : (a / 2 ^ 8 % 2 ^ 8) * 2 ^ 8 ||| a % 2 ^ 8 =
      (a / 2 ^ 8 % 2 ^ 8) * 2 ^ 8 + a % 2 ^ 8 :=
    mul_pow_lor_eq_add _ (by omega)
  rw [s8]
  have s16 : (a / 2 ^ 16 % 2 ^ 8) * 2 ^ 16 ||| ((a / 2 ^ 8 % 2 ^ 8) * 2 ^ 8 + a % 2 ^ 8) =
      (a / 2 ^ 16 % 2 ^ 8) * 2 ^ 16 + ((a / 2 ^ 8 % 2 ^ 8) * 2 ^ 8 + a % 2 ^ 8) :=
    mul_pow_lor_eq_add _ (by omega)
  rw [s16]
  have s24 : (a / 2 ^ 24 % 2 ^ 8) * 2 ^ 24 |||
        ((a / 2 ^ 16 % 2 ^ 8) * 2 ^ 16 + ((a / 2 ^ 8 % 2 ^ 8) * 2 ^ 8 + a % 2 ^ 8)) =
      (a / 2 ^ 24 % 2 ^ 8) * 2 ^ 24 +
        ((a / 2 ^ 16 % 2 ^ 8) * 2 ^ 16 + ((a / 2 ^ 8 % 2 ^ 8) * 2 ^ 8 + a % 2 ^ 8)) :=
    mul_pow_lor_eq_add _ (by omega)
  rw [s24]
  congr 1
  omega

/-- Rejoining the components of a dot-split recovers the original string:
helper used to reconstruct a string from its `splitDot` components. -/
def joinDots : List (List Char) → List Char
  | [] => []
  | [g] => g
  | g :: gs => g ++ '.' :: joinDots gs

/-- `joinDots` inverts `splitDot`. -/
lemma splitDot_reconstruct (cs : List Char) : joinDots (splitDot cs) = cs := by
  induction cs with
  | nil => rfl
  | cons c cs ih =>
    by_cases hc : c = '.'
    · subst hc
      simp only [splitDot, if_pos rfl]
      cases hs : splitDot cs with
      | nil => exact absurd hs (splitDot_ne_nil cs)
      | cons g gs =>
        rw [hs] at ih
        show [] ++ '.' :: joinDots (g :: gs) = '.' :: cs
        simp [ih]
    · simp only [splitDot, if_neg hc]
      cases hs : splitDot cs with
      | nil => exact absurd hs (splitDot_ne_nil cs)
      | cons g gs =>
        rw [hs] at ih
        cases gs with
        | nil =>
          show c :: g = c :: cs
          simp only [joinDots] at ih
          rw [ih]
        | cons g2 gs2 =>
          show (c :: g) ++ '.' :: joinDots (g2 :: gs2) = c :: cs
          simp only [joinDots] at ih ⊢
          simp [← ih]

/-- The big-endian byte composition of `ip_to_int`, in arithmetic form. -/
lemma quad_value_eq {b1 b2 b3 : Nat} (b0 : Nat) (h1 : b1 < 256) (h2 : b2 < 256)
    (h3 : b3 < 256) :
    (((b0 <<< 24) ||| (b1 <<< 16)) ||| (b2 <<< 8)) ||| b3 =
      b0 * 2 ^ 24 + (b1 * 2 ^ 16 + (b2 * 2 ^ 8 + b3)) := by
  rw [Nat.shiftLeft_eq, Nat.shiftLeft_eq, Nat.shiftLeft_eq, Nat.lor_assoc, Nat.lor_assoc]
  have s8 : b2 * 2 ^ 8 ||| b3 = b2 * 2 ^ 8 + b3 :=
    mul_pow_lor_eq_add _ (by omega)
  rw [s8]
  have s16 : b1 * 2 ^ 16 ||| (b2 * 2 ^ 8 + b3) = b1 * 2 ^ 16 + (b2 * 2 ^ 8 + b3) :=
    mul_pow_lor_eq_add _ (by omega)
  rw [s16]
  exact mul_pow_lor_eq_add _ (by omega)

/-- A well-formed dotted quad parses to a 32-bit value. -/
lemma wellFormedQuad_parse {s : String} (h : wellFormedQuad s = true) :
    ∃ v, ip_to_int s = some v ∧ v < 2 ^ 32 := by
  unfold wellFormedQuad at h
  rw [Bool.and_eq_true, beq_iff_eq, List.all_eq_true] at h
  obtain ⟨hlen, hall⟩ := h
  obtain ⟨c0, c1, c2, c3, hsplit⟩ :
      ∃ c0 c1 c2 c3, splitDot s.data = [c0, c1, c2, c3] := by
    cases hsd : splitDot s.data with
    | nil => rw [hsd] at hlen; simp at hlen
    | cons a l1 =>
      cases l1 with
      | nil => rw [hsd] at hlen; simp at hlen
      | cons b l2 =>
        cases l2 with
        | nil => rw [hsd] at hlen; simp at hlen
        | cons c l3 =>
          cases l3 with
          | nil => rw [hsd] at hlen; simp at hlen
          | cons d l4 =>
            cases l4 with
            | nil => exact ⟨a, b, c, d, rfl⟩
            | cons e l5 => rw [hsd] at hlen; simp at hlen
  have hoct : ∀ c ∈ [c0, c1, c2, c3], ∃ v, pyInt? c = some v ∧ v ≤ 255 := by
    intro c hc
    have := hall c (hsplit ▸ hc)
    cases hp : pyInt? c with
    | none => rw [hp] at this; simp at this
    | some v =>
      rw [hp] at this
      simp only [decide_eq_true_eq] at this
      exact ⟨v, rfl, this⟩
  obtain ⟨b0, hp0, hb0⟩ := hoct c0 (by simp)
  obtain ⟨b1, hp1, hb1⟩ := hoct c1 (by simp)
  obtain ⟨b2, hp2, hb2⟩ := hoct c2 (by simp)
  obtain ⟨b3, hp3, hb3⟩ := hoct c3 (by simp)
  refine ⟨(((b0 <<< 24) ||| (b1 <<< 16)) ||| (b2 <<< 8)) ||| b3, ?_, ?_⟩
  · unfold ip_to_int
    rw [hsplit]
    simp only [List.map, hp0, hp1, hp2, hp3, allSome]
  · rw [quad_value_eq b0 (by omega) (by omega) (by omega)]
    omega

/-- A canonical dotted quad parses to a 32-bit value whose rendering is
the original string: the textual round trip on canonical forms. -/
lemma canonicalQuad_spec {s : String} (h : canonicalQuad s = true) :
    ∃ v, ip_to_int s = some v ∧ v < 2 ^ 32 ∧ int_to_ip v = s := by
  unfold canonicalQuad at h
  rw [Bool.and_eq_true, beq_iff_eq, List.all_eq_true] at h
  obtain ⟨hlen, hall⟩ := h
  obtain ⟨c0, c1, c2, c3, hsplit⟩ :
      ∃ c0 c1 c2 c3, splitDot s.data = [c0, c1, c2, c3] := by
    cases hsd : splitDot s.data with
    | nil => rw [hsd] at hlen; simp at hlen
    | cons a l1 =>
      cases l1 with
      | nil => rw [hsd] at hlen; simp at hlen
      | cons b l2 =>
        cases l2 with
        | nil => rw [hsd] at hlen; simp at hlen
        | cons c l3 =>
          cases l3 with
          | nil => rw [hsd] at hlen; simp at hlen
          | cons d l4 =>
            cases l4 with
            | nil => exact ⟨a, b, c, d, rfl⟩
            | cons e l5 => rw [hsd] at hlen; simp at hlen
  have hoct : ∀ c ∈ [c0, c1, c2, c3],
      ∃ v, pyInt? c = some v ∧ v ≤ 255 ∧ (toString v).data = c := by
    intro c hc
    have := hall c (hsplit ▸ hc)
    unfold canonicalOctet at this
    cases hp : pyInt? c with
    | none => rw [hp] at this; simp at this
    | some v =>
      rw [hp] at this
      rw [Bool.and_eq_true, decide_eq_true_eq, beq_iff_eq] at this
      exact ⟨v, rfl, this.1, this.2⟩
  obtain ⟨b0, hp0, hb0, hc0⟩ := hoct c0 (by simp)
  obtain ⟨b1, hp1, hb1, hc1⟩ := hoct c1 (by simp)
  obtain ⟨b2, hp2, hb2, hc2⟩ := hoct c2 (by simp)
  obtain ⟨b3, hp3, hb3, hc3⟩ := hoct c3 (by simp)
  have hval : ip_to_int s = some ((((b0 <<< 24) ||| (b1 <<< 16)) ||| (b2 <<< 8)) ||| b3) := by
    unfold ip_to_int
    rw [hsplit]
    simp only [List.map, hp0, hp1, hp2, hp3, allSome]
  have hsum := quad_value_eq b0 (by omega : b1 < 256) (by omega : b2 < 256)
    (by omega : b3 < 256)
  refine ⟨_, hval, ?_, ?_⟩
  · rw [hsum]; omega
  · -- the bytes of the composed value are b0..b3 again
    have hdata : s.data = c0 ++ '.' :: (c1 ++ '.' :: (c2 ++ '.' :: c3)) := by
      have := splitDot_reconstruct s.data
      rw [hsplit] at this
      simpa [joinDots] using this.symm
    have h255 : (0xFF : Nat) = 2 ^ 8 - 1 := by norm_num
    have e24 :
        (((((b0 <<< 24) ||| (b1 <<< 16)) ||| (b2 <<< 8)) ||| b3) >>> 24) &&& 0xFF = b0 := by
      rw [h255, Nat.and_pow_two_sub_one_eq_mod, Nat.shiftRight_eq_div_pow, hsum]
      omega
    have e16 :
        (((((b0 <<< 24) ||| (b1 <<< 16)) ||| (b2 <<< 8)) ||| b3) >>> 16) &&& 0xFF = b1 := by
      rw [h255, Nat.and_pow_two_sub_one_eq_mod, Nat.shiftRight_eq_div_pow, hsum]
      omega
    have e8 :
        (((((b0 <<< 24) ||| (b1 <<< 16)) ||| (b2 <<< 8)) ||| b3) >>> 8) &&& 0xFF = b2 := by
      rw [h255, Nat.and_pow_two_sub_one_eq_mod, Nat.shiftRight_eq_div_pow, hsum]
      omega
    have e0 : ((((b0 <<< 24) ||| (b1 <<< 16)) ||| (b2 <<< 8)) ||| b3) &&& 0xFF = b3 := by
      rw [h255, Nat.and_pow_two_sub_one_eq_mod, hsum]
      omega
    apply String.ext
    rw [int_to_ip_data, e24, e16, e8, e0, hc0, hc1, hc2, hc3, hdata]

/-! ## Facts about the minimum of a list -/

/-- Folding `min` never rises above the accumulator. -/
lemma foldl_min_le_acc (l : List Nat) (a : Nat) : l.foldl Nat.min a ≤ a := by
  induction l generalizing a with
  | nil => simp
  | cons x xs ih =>
    calc (x :: xs).foldl Nat.min a = xs.foldl Nat.min (Nat.min a x) := rfl
    _ ≤ Nat.min a x := ih _
    _ ≤ a := Nat.min_le_left _ _

/-- Folding `min` ends at or below every list element. -/
lemma foldl_min_le_mem (l : List Nat) (a : Nat) : ∀ x ∈ l, l.foldl Nat.min a ≤ x := by
  induction l generalizing a with
  | nil => simp
  | cons y ys ih =>
    intro x hx
    rcases List.mem_cons.mp hx with rfl | hx2
    · calc (x :: ys).foldl Nat.min a = ys.foldl Nat.min (Nat.min a x) := rfl
      _ ≤ Nat.min a x := foldl_min_le_acc _ _
      _ ≤ x := Nat.min_le_right _ _
    · exact ih _ x hx2

/-- Folding `min` produces the accumulator or a list element. -/
lemma foldl_min_mem (l : List Nat) (a : Nat) :
    l.foldl Nat.min a = a ∨ l.foldl Nat.min a ∈ l := by
  induction l generalizing a with
  | nil => simp
  | cons x xs ih =>
    rcases ih (Nat.min a x) with h | h
    · rcases Nat.le_total a x with hax | hxa
      · left
        calc (x :: xs).foldl Nat.min a = xs.foldl Nat.min (Nat.min a x) := rfl
        _ = Nat.min a x := h
        _ = a := Nat.min_eq_left hax
      · right
        refine List.mem_cons.mpr (Or.inl ?_)
        calc (x :: xs).foldl Nat.min a = xs.foldl Nat.min (Nat.min a x) := rfl
        _ = Nat.min a x := h
        _ = x := Nat.min_eq_right hxa
    · right
      exact List.mem_cons.mpr (Or.inr h)

/-- The Python minimum of a nonempty list is an element of it. -/
lemma pyMin_mem {l : List Nat} (h : l ≠ []) : pyMin l ∈ l := by
  cases l with
  | nil => exact absurd rfl h
  | cons x xs =>
    show xs.foldl Nat.min x ∈ x :: xs
    rcases foldl_min_mem xs x with heq | hmem
    · rw [heq]; exact List.mem_cons_self _ _
    · exact List.mem_cons_of_mem _ hmem

/-- The Python minimum is a lower bound of the list. -/
lemma pyMin_le {l : List Nat} : ∀ x ∈ l, pyMin l ≤ x := by
  cases l with
  | nil => simp
  | cons y ys =>
    intro x hx
    rcases List.mem_cons.mp hx with rfl | hx2
    · exact foldl_min_le_acc ys x
    · exact foldl_min_le_mem ys y x hx2

/-- On a list whose head is a lower bound, the Python minimum is the head. -/
lemma pyMin_cons_of_lower {c : Nat} {rest : List Nat} (h : ∀ x ∈ rest, c ≤ x) :
    pyMin (c :: rest) = c := by
  show rest.foldl Nat.min c = c
  induction rest with
  | nil => rfl
  | cons x xs ih =>
    have hcx : Nat.min c x = c := Nat.min_eq_left (h x (List.mem_cons_self _ _))
    calc (x :: xs).foldl Nat.min c = xs.foldl Nat.min (Nat.min c x) := rfl
    _ = xs.foldl Nat.min c := by rw [hcx]
    _ = c := ih (fun y hy => h y (List.mem_cons_of_mem _ hy))

/-! ## Characterisation of the search loop in find_min_subnet -/

/-- A successful `find?` splits its list at the first hit, everything
before it failing the test. -/
lemma find?_split {α : Type} {p : α → Bool} {l : List α} {a : α}
    (h : l.find? p = some a) :
    ∃ l₁ l₂, l = l₁ ++ a :: l₂ ∧ ∀ x ∈ l₁, p x = false := by
  induction l with
  | nil => simp [List.find?] at h
  | cons b l ih =>
    cases hb : p b with
    | true =>
      rw [List.find?_cons_of_pos _ hb] at h
      obtain rfl : b = a := by injection h
      exact ⟨[], l, rfl, by simp⟩
    | false =>
      rw [List.find?_cons_of_neg _ (by simp [hb])] at h
      obtain ⟨l₁, l₂, heq, hall⟩ := ih h
      refine ⟨b :: l₁, l₂, by simp [heq], ?_⟩
      intro x hx
      rcases List.mem_cons.mp hx with rfl | hx2
      · exact hb
      · exact hall x hx2

/-- Membership in the candidate prefix list. -/
lemma mem_candidatePrefixes {q f : Nat} (hf : f ≤ 32) :
    q ∈ candidatePrefixes f ↔ f ≤ q ∧ q ≤ 32 := by
  unfold candidatePrefixes
  simp only [List.mem_map, List.mem_range]
  constructor
  · rintro ⟨i, hi, rfl⟩
    omega
  · rintro ⟨h1, h2⟩
    exact ⟨32 - q, by omega, by omega⟩

/-- The candidate prefixes descend strictly. -/
lemma candidatePrefixes_pairwise (f : Nat) :
    (candidatePrefixes f).Pairwise (fun a b => b < a) := by
  unfold candidatePrefixes
  rw [List.pairwise_map]
  refine List.Pairwise.imp_of_mem ?_ (List.pairwise_lt_range _)
  intro a b ha hb hlt
  rw [List.mem_range] at ha hb
  omega

/-- When some candidate covers, `find_min_subnet` returns the largest
covering prefix in `[min_prefix, 32]`, with the network, broadcast and
CIDR text built at that prefix. -/
lemma find_min_subnet_spec {ips_int : List Nat} { min_prefix : Nat}
    (hmp : min_prefix ≤ 32)
    (hcov : coversAll ips_int (pyMin ips_int) min_prefix = true) :
    ∃ p, min_prefix ≤ p ∧ p ≤ 32 ∧
      coversAll ips_int (pyMin ips_int) p = true ∧
      (∀ q, p < q → q ≤ 32 → coversAll ips_int (pyMin ips_int) q = false) ∧
      find_min_subnet ips_int min_prefix =
        (int_to_ip (networkOf (pyMin ips_int) p) ++ "/" ++ toString p,
          int_to_ip (networkOf (pyMin ips_int) p),
          int_to_ip (broadcastOf (pyMin ips_int) p), p) := by
  have hmem : min_prefix ∈ candidatePrefixes min_prefix :=
    (mem_candidatePrefixes hmp).mpr ⟨le_refl _, hmp⟩
  cases hf : (candidatePrefixes min_prefix).find?
      (fun q => coversAll ips_int (pyMin ips_int) q) with
  | none =>
    rw [List.find?_eq_none] at hf
    exact absurd hcov (by simpa using hf _ hmem)
  | some p =>
    have hp : coversAll ips_int (pyMin ips_int) p = true := List.find?_some hf
    have hpmem := List.mem_of_find?_eq_some hf
    have hprange := (mem_candidatePrefixes hmp).mp hpmem
    obtain ⟨l₁, l₂, heq, hfail⟩ := find?_split hf
    have hres : find_min_subnet ips_int min_prefix =
        (int_to_ip (networkOf (pyMin ips_int) p) ++ "/" ++ toString p,
          int_to_ip (networkOf (pyMin ips_int) p),
          int_to_ip (broadcastOf (pyMin ips_int) p), p) := by
      unfold find_min_subnet
      rw [hf]
    refine ⟨p, hprange.1, hprange.2, hp, ?_, hres⟩
    intro q hpq hq32
    have hqmem : q ∈ candidatePrefixes min_prefix :=
      (mem_candidatePrefixes hmp).mpr ⟨by omega, hq32⟩
    rw [heq] at hqmem
    rcases List.mem_append.mp hqmem with hql | hqr
    · exact hfail q hql
    · rcases List.mem_cons.mp hqr with rfl | hql₂
      · omega
      · have hpw := candidatePrefixes_pairwise min_prefix
        rw [heq] at hpw
        have hcons := (List.pairwise_append.mp hpw).2.1
        have hlt := (List.pairwise_cons.mp hcons).1 q hql₂
        omega

/-- When no candidate in `[min_prefix, 32]` covers, `find_min_subnet`
falls back to the floor prefix unconditionally. -/
lemma find_min_subnet_fallback {ips_int : List Nat} { min_prefix : Nat}
    (hmp : min_prefix ≤ 32)
    (hnone : ∀ q, min_prefix ≤ q → q ≤ 32 →
      coversAll ips_int (pyMin ips_int) q = false) :
    find_min_subnet ips_int min_prefix =
      (int_to_ip (networkOf (pyMin ips_int) min_prefix) ++ "/" ++ toString min_prefix,
        int_to_ip (networkOf (pyMin ips_int) min_prefix),
        int_to_ip (broadcastOf (pyMin ips_int) min_prefix), min_prefix) := by
  have hf : (candidatePrefixes min_prefix).find?
      (fun q => coversAll ips_int (pyMin ips_int) q) = none := by
    rw [List.find?_eq_none]
    intro x hx
    have hxr := (mem_candidatePrefixes hmp).mp hx
    simp [hnone x hxr.1 hxr.2]
  unfold find_min_subnet
  rw [hf]

/-! ## The /24 network class -/

/-- The /24 network value `ip & 0xFFFFFF00` in arithmetic form. -/
lemma and_FFFFFF00_eq {x : Nat} (h : x < 2 ^ 32) :
    x &&& 0xFFFFFF00 = x / 2 ^ 8 * 2 ^ 8 := by
  have hm : (0xFFFFFF00 : Nat) = (2 ^ 24 - 1) <<< 8 := by
    rw [Nat.shiftLeft_eq]
    norm_num
  rw [hm, and_ones_shift, Nat.shiftRight_eq_div_pow, Nat.shiftLeft_eq,
    Nat.mod_eq_of_lt (by omega)]

/-- Sorted lists have monotone /24 classes (for 32-bit values). -/
lemma class_mono {x y : Nat} (hxy : x ≤ y) (hx : x < 2 ^ 32) (hy : y < 2 ^ 32) :
    x &&& 0xFFFFFF00 ≤ y &&& 0xFFFFFF00 := by
  rw [and_FFFFFF00_eq hx, and_FFFFFF00_eq hy]
  have := @Nat.div_le_div_right x y (2 ^ 8) hxy
  exact Nat.mul_le_mul_right _ this

/-- A group of addresses sharing a /24 class is covered by the /24 block
aligned at its minimum: the containment test at prefix 24 passes. -/
lemma coversAll_24_of_same_class {g : List Nat} {c : Nat} (hc : c < 2 ^ 32)
    (hb : ∀ x ∈ g, x < 2 ^ 32)
    (hcl : ∀ x ∈ g, x &&& 0xFFFFFF00 = c &&& 0xFFFFFF00) :
    coversAll g c 24 = true := by
  rw [coversAll, List.all_eq_true]
  intro x hx
  rw [decide_eq_true_eq]
  have hxb := hb x hx
  have hxc := hcl x hx
  rw [and_FFFFFF00_eq hxb, and_FFFFFF00_eq hc] at hxc
  rw [networkOf_eq hc (by norm_num), broadcastOf_eq hc (by norm_num)]
  have h8 : (32 : Nat) - 24 = 8 := by norm_num
  rw [h8]
  omega

/-! ## One step of the grouping loop -/

/-- The first element surviving `dropWhile` fails the predicate. -/
lemma dropWhile_head_false {α : Type} {p : α → Bool} {l : List α} {y : α} {t : List α}
    (h : l.dropWhile p = y :: t) : p y = false := by
  induction l with
  | nil => simp [List.dropWhile] at h
  | cons a l ih =>
    rw [List.dropWhile_cons] at h
    by_cases hp : p a = true
    · rw [if_pos hp] at h
      exact ih h
    · rw [if_neg hp] at h
      obtain rfl : a = y := by injection h
      exact Bool.eq_false_iff.mpr hp

/-- Everything surviving the `takeWhile` over the seed's /24 class lies in
a strictly larger /24 class (sorted, bounded list). -/
lemma dropWhile_class_gt {c : Nat} {rest : List Nat}
    (hsort : List.Pairwise (fun a b => a ≤ b) (c :: rest))
    (hbound : ∀ x ∈ c :: rest, x < 2 ^ 32) :
    ∀ x ∈ rest.dropWhile (fun ip => (ip &&& 0xFFFFFF00) == (c &&& 0xFFFFFF00)),
      c &&& 0xFFFFFF00 < x &&& 0xFFFFFF00 := by
  intro x hx
  cases hd : rest.dropWhile (fun ip => (ip &&& 0xFFFFFF00) == (c &&& 0xFFFFFF00)) with
  | nil => rw [hd] at hx; simp at hx
  | cons y t =>
    have hy_ne : ¬ (y &&& 0xFFFFFF00) = (c &&& 0xFFFFFF00) := by
      have := dropWhile_head_false hd
      simpa using this
    have hsub : (y :: t).Sublist rest := hd ▸ List.dropWhile_sublist _
    have hymem : y ∈ rest := hsub.subset (List.mem_cons_self _ _)
    have hcy : c ≤ y := (List.pairwise_cons.mp hsort).1 y hymem
    have hyb : y < 2 ^ 32 := hbound y (List.mem_cons_of_mem _ hymem)
    have hcb : c < 2 ^ 32 := hbound c (List.mem_cons_self _ _)
    have hclass_cy : c &&& 0xFFFFFF00 < y &&& 0xFFFFFF00 :=
      lt_of_le_of_ne (class_mono hcy hcb hyb) (fun he => hy_ne he.symm)
    rw [hd] at hx
    rcases List.mem_cons.mp hx with rfl | hxt
    · exact hclass_cy
    · have hsorted_rest : List.Pairwise (fun a b => a ≤ b) rest :=
        (List.pairwise_cons.mp hsort).2
      have hsorted_yt : List.Pairwise (fun a b => a ≤ b) (y :: t) :=
        List.Pairwise.sublist hsub hsorted_rest
      have hyx : y ≤ x := (List.pairwise_cons.mp hsorted_yt).1 x hxt
      have hxmem : x ∈ rest := hsub.subset (List.mem_cons_of_mem _ hxt)
      have hxb : x < 2 ^ 32 := hbound x (List.mem_cons_of_mem _ hxmem)
      exact lt_of_lt_of_le hclass_cy (class_mono hyx hyb hxb)

/-- Splitting a list into a rejected prefix and an accepted suffix
computes its filter. -/
lemma filter_of_parts {P : Nat → Bool} {t d rest : List Nat} (hsplit : t ++ d = rest)
    (ht : ∀ x ∈ t, P x = false) (hd : ∀ x ∈ d, P x = true) :
    rest.filter P = d := by
  subst hsplit
  have h1 : t.filter P = [] :=
    List.filter_eq_nil_iff.mpr (fun a ha => by simp [ht a ha])
  have h2 : d.filter P = d := List.filter_eq_self.mpr hd
  rw [List.filter_append, h1, h2, List.nil_append]

/-- The removal step of the loop: filtering out the group's values from
the remaining list leaves exactly the `dropWhile` suffix (sorted, bounded
list).  In particular no later occurrence of a group value survives. -/
lemma remaining_eq_dropWhile {c : Nat} {rest : List Nat}
    (hsort : List.Pairwise (fun a b => a ≤ b) (c :: rest))
    (hbound : ∀ x ∈ c :: rest, x < 2 ^ 32) :
    (c :: rest).filter (fun ip =>
      !((c :: rest.takeWhile (fun ip2 => (ip2 &&& 0xFFFFFF00) == (c &&& 0xFFFFFF00))).contains ip)) =
      rest.dropWhile (fun ip => (ip &&& 0xFFFFFF00) == (c &&& 0xFFFFFF00)) := by
  have hc_head : ((c :: rest.takeWhile
      (fun ip2 => (ip2 &&& 0xFFFFFF00) == (c &&& 0xFFFFFF00))).contains c) = true := by
    simp [List.contains_cons]
  rw [List.filter_cons_of_neg (by simp [hc_head])]
  apply filter_of_parts (List.takeWhile_append_dropWhile
    (fun ip => (ip &&& 0xFFFFFF00) == (c &&& 0xFFFFFF00)) rest)
  · intro a ha
    have hmem : a ∈ c :: rest.takeWhile
        (fun ip2 => (ip2 &&& 0xFFFFFF00) == (c &&& 0xFFFFFF00)) :=
      List.mem_cons_of_mem _ ha
    have hcont : ((c :: rest.takeWhile
        (fun ip2 => (ip2 &&& 0xFFFFFF00) == (c &&& 0xFFFFFF00))).contains a) = true := by
      rw [List.contains_eq_any_beq]
      refine List.any_eq_true.mpr ⟨a, hmem, ?_⟩
      simp
    show (!((c :: rest.takeWhile
        (fun ip2 => (ip2 &&& 0xFFFFFF00) == (c &&& 0xFFFFFF00))).contains a)) = false
    rw [hcont]
    rfl
  · intro a ha
    have hagt := dropWhile_class_gt hsort hbound a ha
    have hnotmem : a ∉ c :: rest.takeWhile
        (fun ip2 => (ip2 &&& 0xFFFFFF00) == (c &&& 0xFFFFFF00)) := by
      intro hmem
      rcases List.mem_cons.mp hmem with rfl | htw
      · exact lt_irrefl _ hagt
      · have := List.mem_takeWhile_imp htw
        rw [beq_iff_eq] at this
        omega
    have hcont : ((c :: rest.takeWhile
        (fun ip2 => (ip2 &&& 0xFFFFFF00) == (c &&& 0xFFFFFF00))).contains a) = false := by
      rw [List.contains_eq_any_beq]
      refine List.any_eq_false.mpr ?_
      intro x hx
      intro hbeq
      rw [beq_iff_eq] at hbeq
      exact hnotmem (hbeq ▸ hx)
    show (!((c :: rest.takeWhile
        (fun ip2 => (ip2 &&& 0xFFFFFF00) == (c &&& 0xFFFFFF00))).contains a)) = true
    rw [hcont]
    rfl

/-- Splitting a list into an accepted prefix and a rejected suffix
computes its filter. -/
lemma filter_of_parts_pos {P : Nat → Bool} {t d rest : List Nat} (hsplit : t ++ d = rest)
    (ht : ∀ x ∈ t, P x = true) (hd : ∀ x ∈ d, P x = false) :
    rest.filter P = t := by
  subst hsplit
  have h1 : t.filter P = t := List.filter_eq_self.mpr ht
  have h2 : d.filter P = [] :=
    List.filter_eq_nil_iff.mpr (fun a ha => by simp [hd a ha])
  rw [List.filter_append, h1, h2, List.append_nil]

/-- On a sorted bounded list, the greedy run of the seed's /24 class is
exactly the filter of the whole list by that class: equal values are
contiguous in sorted order. -/
lemma group_eq_filter_class {c : Nat} {rest : List Nat}
    (hsort : List.Pairwise (fun a b => a ≤ b) (c :: rest))
    (hbound : ∀ x ∈ c :: rest, x < 2 ^ 32) :
    c :: rest.takeWhile (fun ip => (ip &&& 0xFFFFFF00) == (c &&& 0xFFFFFF00)) =
      (c :: rest).filter (fun ip => (ip &&& 0xFFFFFF00) == (c &&& 0xFFFFFF00)) := by
  rw [List.filter_cons_of_pos (by simp)]
  congr 1
  symm
  apply filter_of_parts_pos (List.takeWhile_append_dropWhile
    (fun ip => (ip &&& 0xFFFFFF00) == (c &&& 0xFFFFFF00)) rest)
  · intro x hx
    have := @List.mem_takeWhile_imp Nat
      (fun ip => (ip &&& 0xFFFFFF00) == (c &&& 0xFFFFFF00)) rest x hx
    simpa using this
  · intro x hx
    have := dropWhile_class_gt hsort hbound x hx
    simp only [beq_eq_false_iff_ne, ne_eq]
    omega

/-- `dedup` of a constant run followed by a suffix free of that constant. -/
lemma dedup_head_run {C : Nat} {pre suf : List Nat} (hpre : ∀ x ∈ pre, x = C)
    (hsuf : C ∉ suf) :
    (C :: (pre ++ suf)).dedup = C :: suf.dedup := by
  induction pre with
  | nil =>
    rw [List.nil_append, List.dedup_cons_of_not_mem hsuf]
  | cons a pre ih =>
    have ha : a = C := hpre a (List.mem_cons_self _ _)
    subst ha
    rw [List.cons_append, List.dedup_cons_of_mem (by simp)]
    exact ih (fun x hx => hpre x (List.mem_cons_of_mem _ hx))

/-- One step of the global group-by /24 partition on a sorted bounded
list: the first class's group is the greedy run, and the rest is the
global partition of the remaining suffix. -/
lemma groupBy24Global_step {c : Nat} {rest : List Nat}
    (hsort : List.Pairwise (fun a b => a ≤ b) (c :: rest))
    (hbound : ∀ x ∈ c :: rest, x < 2 ^ 32) :
    groupBy24Global (c :: rest) =
      (c :: rest.takeWhile (fun ip => (ip &&& 0xFFFFFF00) == (c &&& 0xFFFFFF00))) ::
        groupBy24Global (rest.dropWhile (fun ip => (ip &&& 0xFFFFFF00) == (c &&& 0xFFFFFF00))) := by
  have hsplitr := List.takeWhile_append_dropWhile
    (fun ip => (ip &&& 0xFFFFFF00) == (c &&& 0xFFFFFF00)) rest
  have hpre : ∀ y ∈ (rest.takeWhile
      (fun ip => (ip &&& 0xFFFFFF00) == (c &&& 0xFFFFFF00))).map (fun ip => ip &&& 0xFFFFFF00),
      y = c &&& 0xFFFFFF00 := by
    intro y hy
    obtain ⟨x, hx, rfl⟩ := List.mem_map.mp hy
    have := List.mem_takeWhile_imp hx
    rwa [beq_iff_eq] at this
  have hsuf : (c &&& 0xFFFFFF00) ∉ (rest.dropWhile
      (fun ip => (ip &&& 0xFFFFFF00) == (c &&& 0xFFFFFF00))).map (fun ip => ip &&& 0xFFFFFF00) := by
    intro hmem
    obtain ⟨x, hx, hxe⟩ := List.mem_map.mp hmem
    have := dropWhile_class_gt hsort hbound x hx
    omega
  have hmap : (c :: rest).map (fun ip => ip &&& 0xFFFFFF00) =
      (c &&& 0xFFFFFF00) ::
        ((rest.takeWhile (fun ip => (ip &&& 0xFFFFFF00) == (c &&& 0xFFFFFF00))).map
            (fun ip => ip &&& 0xFFFFFF00) ++
          (rest.dropWhile (fun ip => (ip &&& 0xFFFFFF00) == (c &&& 0xFFFFFF00))).map
            (fun ip => ip &&& 0xFFFFFF00)) := by
    rw [List.map_cons, ← List.map_append, hsplitr]
  unfold groupBy24Global
  rw [hmap, dedup_head_run hpre hsuf, List.map_cons]
  congr 1
  · exact (group_eq_filter_class hsort hbound).symm
  · apply List.map_congr_left
    intro cl hcl
    have hclmem : cl ∈ (rest.dropWhile
        (fun ip => (ip &&& 0xFFFFFF00) == (c &&& 0xFFFFFF00))).map (fun ip => ip &&& 0xFFFFFF00) :=
      List.mem_dedup.mp hcl
    obtain ⟨w, hw, hwe⟩ := List.mem_map.mp hclmem
    have hwgt := dropWhile_class_gt hsort hbound w hw
    have hrest : rest.filter (fun ip => (ip &&& 0xFFFFFF00) == cl) =
        (rest.dropWhile (fun ip => (ip &&& 0xFFFFFF00) == (c &&& 0xFFFFFF00))).filter
          (fun ip => (ip &&& 0xFFFFFF00) == cl) := by
      conv_lhs => rw [← hsplitr]
      rw [List.filter_append]
      have htz : (rest.takeWhile
          (fun ip => (ip &&& 0xFFFFFF00) == (c &&& 0xFFFFFF00))).filter
          (fun ip => (ip &&& 0xFFFFFF00) == cl) = [] := by
        rw [List.filter_eq_nil_iff]
        intro x hx
        have hxcl := @List.mem_takeWhile_imp Nat
          (fun ip => (ip &&& 0xFFFFFF00) == (c &&& 0xFFFFFF00)) rest x hx
        rw [beq_iff_eq] at hxcl
        simp only [beq_iff_eq]
        omega
      rw [htz, List.nil_append]
    rw [List.filter_cons_of_neg (by
      simp only [beq_iff_eq]
      omega), hrest]

/-! ## Global facts about the grouping loop -/

/-- The greedy groups concatenate back to the sorted list: nothing is lost
or duplicated by the take/filter steps. -/
lemma greedyGroups_flatten : ∀ fuel (l : List Nat), l.length ≤ fuel →
    List.Pairwise (fun a b => a ≤ b) l → (∀ x ∈ l, x < 2 ^ 32) →
    (greedyGroupsF fuel l).flatten = l := by
  intro fuel
  induction fuel with
  | zero =>
    intro l hl _ _
    have : l = [] := List.length_eq_zero.mp (Nat.le_zero.mp hl)
    subst this
    rfl
  | succ fuel ih =>
    intro l hl hsort hbound
    cases l with
    | nil => rfl
    | cons c rest =>
      simp only [greedyGroupsF]
      rw [remaining_eq_dropWhile hsort hbound, List.flatten_cons]
      have hsub : (rest.dropWhile
          (fun ip => (ip &&& 0xFFFFFF00) == (c &&& 0xFFFFFF00))).Sublist rest :=
        List.dropWhile_sublist _
      rw [ih _ (le_trans hsub.length_le (by simpa using hl))
        (List.Pairwise.sublist hsub (List.pairwise_cons.mp hsort).2)
        (fun x hx => hbound x (List.mem_cons_of_mem _ (hsub.subset hx)))]
      rw [List.cons_append, List.takeWhile_append_dropWhile]

/-- Every greedy group is a nonempty sublist of the input sharing a single
/24 class, led by its seed. -/
lemma greedyGroups_groups : ∀ fuel (l : List Nat), l.length ≤ fuel →
    List.Pairwise (fun a b => a ≤ b) l → (∀ x ∈ l, x < 2 ^ 32) →
    ∀ g ∈ greedyGroupsF fuel l, g.Sublist l ∧
      ∃ c t, g = c :: t ∧ ∀ x ∈ g, x &&& 0xFFFFFF00 = c &&& 0xFFFFFF00 := by
  intro fuel
  induction fuel with
  | zero =>
    intro l hl _ _
    have : l = [] := List.length_eq_zero.mp (Nat.le_zero.mp hl)
    subst this
    simp [greedyGroupsF]
  | succ fuel ih =>
    intro l hl hsort hbound
    cases l with
    | nil => simp [greedyGroupsF]
    | cons c rest =>
      simp only [greedyGroupsF]
      rw [remaining_eq_dropWhile hsort hbound]
      intro g hg
      rcases List.mem_cons.mp hg with rfl | hgrec
      · constructor
        · exact List.Sublist.cons₂ _ (List.takeWhile_sublist _)
        · refine ⟨c, _, rfl, ?_⟩
          intro x hx
          rcases List.mem_cons.mp hx with rfl | hxt
          · rfl
          · have := @List.mem_takeWhile_imp Nat
              (fun ip => (ip &&& 0xFFFFFF00) == (c &&& 0xFFFFFF00)) rest x hxt
            rwa [beq_iff_eq] at this
      · have hsub : (rest.dropWhile
            (fun ip => (ip &&& 0xFFFFFF00) == (c &&& 0xFFFFFF00))).Sublist rest :=
          List.dropWhile_sublist _
        have hrec := ih _ (le_trans hsub.length_le (by simpa using hl))
          (List.Pairwise.sublist hsub (List.pairwise_cons.mp hsort).2)
          (fun x hx => hbound x (List.mem_cons_of_mem _ (hsub.subset hx))) g hgrec
        exact ⟨hrec.1.trans (hsub.trans (List.sublist_cons_self _ _)), hrec.2⟩

/-- On a sorted bounded list the greedy contiguous-run grouping coincides
with the global group-by /24 partition. -/
lemma greedyGroups_eq_global : ∀ fuel (l : List Nat), l.length ≤ fuel →
    List.Pairwise (fun a b => a ≤ b) l → (∀ x ∈ l, x < 2 ^ 32) →
    greedyGroupsF fuel l = groupBy24Global l := by
  intro fuel
  induction fuel with
  | zero =>
    intro l hl _ _
    have : l = [] := List.length_eq_zero.mp (Nat.le_zero.mp hl)
    subst this
    rfl
  | succ fuel ih =>
    intro l hl hsort hbound
    cases l with
    | nil => rfl
    | cons c rest =>
      simp only [greedyGroupsF]
      rw [remaining_eq_dropWhile hsort hbound]
      have hsub : (rest.dropWhile
          (fun ip => (ip &&& 0xFFFFFF00) == (c &&& 0xFFFFFF00))).Sublist rest :=
        List.dropWhile_sublist _
      rw [ih _ (le_trans hsub.length_le (by simpa using hl))
        (List.Pairwise.sublist hsub (List.pairwise_cons.mp hsort).2)
        (fun x hx => hbound x (List.mem_cons_of_mem _ (hsub.subset hx)))]
      exact (groupBy24Global_step hsort hbound).symm

/-- The classification loop is the greedy grouping followed by per-group
classification. -/
lemma splitLoopF_eq_assemble : ∀ fuel (l : List Nat) (mp : Nat),
    splitLoopF fuel l mp =
      (assembleAggs (greedyGroupsF fuel l) mp, assembleSingles (greedyGroupsF fuel l)) := by
  intro fuel
  induction fuel with
  | zero =>
    intro l mp
    cases l <;> rfl
  | succ fuel ih =>
    intro l mp
    cases l with
    | nil => rfl
    | cons c rest =>
      simp only [splitLoopF, greedyGroupsF]
      rw [ih]
      cases ht : rest.takeWhile (fun ip => (ip &&& 0xFFFFFF00) == (c &&& 0xFFFFFF00)) with
      | nil =>
        simp [assembleAggs, assembleSingles, List.filterMap_cons]
      | cons x xs =>
        simp [assembleAggs, assembleSingles, List.filterMap_cons]

/-! ## Assembling records from groups -/

/-- Membership in the assembled aggregate records. -/
lemma mem_assembleAggs {gs : List (List Nat)} {mp : Nat} {a : AggRecord} :
    a ∈ assembleAggs gs mp ↔ ∃ g ∈ gs, ¬ g.length = 1 ∧ a = buildAgg g mp := by
  unfold assembleAggs
  rw [List.mem_filterMap]
  constructor
  · rintro ⟨g, hg, hfg⟩
    by_cases h1 : g.length = 1
    · rw [if_pos (by simpa using h1)] at hfg
      exact absurd hfg (by simp)
    · rw [if_neg (by simpa using h1)] at hfg
      exact ⟨g, hg, h1, by injection hfg with h; exact h.symm⟩
  · rintro ⟨g, hg, h1, rfl⟩
    exact ⟨g, hg, by rw [if_neg (by simpa using h1)]⟩

/-- The member list stored in an aggregate record. -/
lemma buildAgg_members (g : List Nat) (mp : Nat) :
    (buildAgg g mp).2.2.2.1 = g.map int_to_ip := rfl

/-- Assembling past a singleton group. -/
lemma assembleAggs_cons_one {x : Nat} {gs : List (List Nat)} {mp : Nat} :
    assembleAggs ([x] :: gs) mp = assembleAggs gs mp := by
  unfold assembleAggs
  rw [List.filterMap_cons]
  rfl

/-- Assembling past a non-singleton group. -/
lemma assembleAggs_cons_ne_one {g : List Nat} {gs : List (List Nat)} {mp : Nat}
    (h : ¬ g.length = 1) :
    assembleAggs (g :: gs) mp = buildAgg g mp :: assembleAggs gs mp := by
  unfold assembleAggs
  rw [List.filterMap_cons, if_neg (by simpa using h)]

/-- Singleton assembly of a singleton group. -/
lemma assembleSingles_cons_one {x : Nat} {gs : List (List Nat)} :
    assembleSingles ([x] :: gs) = int_to_ip x :: assembleSingles gs := by
  unfold assembleSingles
  rw [List.filterMap_cons]

/-- Singleton assembly past a non-singleton group. -/
lemma assembleSingles_cons_ne_one {g : List Nat} {gs : List (List Nat)}
    (h : ¬ g.length = 1) :
    assembleSingles (g :: gs) = assembleSingles gs := by
  unfold assembleSingles
  rw [List.filterMap_cons]
  cases g with
  | nil => rfl
  | cons x t =>
    cases t with
    | nil => exact absurd rfl h
    | cons y t2 => rfl

/-- The multiset of all aggregate members together with all singleton
entries is exactly the rendering of all grouped values. -/
lemma assemble_perm (gs : List (List Nat)) (mp : Nat) :
    ((assembleAggs gs mp).flatMap (fun a => a.2.2.2.1) ++ assembleSingles gs).Perm
      (gs.flatten.map int_to_ip) := by
  induction gs with
  | nil => rfl
  | cons g gs ih =>
    by_cases h1 : g.length = 1
    · obtain ⟨x, rfl⟩ := List.length_eq_one.mp h1
      rw [assembleAggs_cons_one, assembleSingles_cons_one, List.flatten_cons,
        List.singleton_append, List.map_cons]
      exact List.Perm.trans List.perm_middle (List.Perm.cons _ ih)
    · rw [assembleAggs_cons_ne_one h1, assembleSingles_cons_ne_one h1,
        List.flatten_cons, List.flatMap_cons, buildAgg_members, List.map_append,
        List.append_assoc]
      exact List.Perm.append_left _ ih

/-! ## Parsing the input list -/

/-- Unfolding `allSome` past a successful head conversion. -/
lemma allSome_cons_some (v : Nat) (rest : List (Option Nat)) :
    allSome (some v :: rest) = (allSome rest).map (fun vs => v :: vs) := by
  show (match allSome rest with
    | some vs => some (v :: vs)
    | none => none) = _
  cases allSome rest <;> rfl

/-- Parsed values of well-formed quads are 32-bit. -/
lemma allSome_map_bounds {ips : List String} :
    ∀ {l : List Nat}, (∀ s ∈ ips, wellFormedQuad s = true) →
      allSome (ips.map ip_to_int) = some l → ∀ x ∈ l, x < 2 ^ 32 := by
  induction ips with
  | nil =>
    intro l _ h
    simp only [List.map_nil, allSome] at h
    injection h with h
    subst h
    simp
  | cons s ips ih =>
    intro l hwf h
    obtain ⟨v, hv, hvb⟩ := wellFormedQuad_parse (hwf s (List.mem_cons_self _ _))
    rw [List.map_cons, hv, allSome_cons_some] at h
    cases hrec : allSome (ips.map ip_to_int) with
    | none => rw [hrec] at h; exact absurd h (by simp)
    | some vs =>
      rw [hrec] at h
      simp only [Option.map_some'] at h
      injection h with h
      subst h
      intro x hx
      rcases List.mem_cons.mp hx with rfl | hx2
      · exact hvb
      · exact ih (fun t ht => hwf t (List.mem_cons_of_mem _ ht)) hrec x hx2

/-- Parsing a list of canonical quads: the values render back to exactly
the input strings. -/
lemma allSome_map_render {ips : List String} :
    ∀ {l : List Nat}, (∀ s ∈ ips, canonicalQuad s = true) →
      allSome (ips.map ip_to_int) = some l →
      l.map int_to_ip = ips ∧ ∀ x ∈ l, x < 2 ^ 32 := by
  induction ips with
  | nil =>
    intro l _ h
    simp only [List.map_nil, allSome] at h
    injection h with h
    subst h
    simp
  | cons s ips ih =>
    intro l hcan h
    obtain ⟨v, hv, hvb, hvr⟩ := canonicalQuad_spec (hcan s (List.mem_cons_self _ _))
    rw [List.map_cons, hv, allSome_cons_some] at h
    cases hrec : allSome (ips.map ip_to_int) with
    | none => rw [hrec] at h; exact absurd h (by simp)
    | some vs =>
      rw [hrec] at h
      simp only [Option.map_some'] at h
      injection h with h
      subst h
      obtain ⟨hmap, hb⟩ := ih (fun t ht => hcan t (List.mem_cons_of_mem _ ht)) hrec
      constructor
      · rw [List.map_cons, hvr, hmap]
      · intro x hx
        rcases List.mem_cons.mp hx with rfl | hx2
        · exact hvb
        · exact hb x hx2

/-- A list of successfully parsing strings parses as a whole. -/
lemma allSome_map_total {ips : List String}
    (h : ∀ s ∈ ips, (ip_to_int s).isSome = true) :
    ∃ l, allSome (ips.map ip_to_int) = some l := by
  induction ips with
  | nil => exact ⟨[], rfl⟩
  | cons s ips ih =>
    obtain ⟨l, hl⟩ := ih (fun t ht => h t (List.mem_cons_of_mem _ ht))
    obtain ⟨v, hv⟩ := Option.isSome_iff_exists.mp (h s (List.mem_cons_self _ _))
    refine ⟨v :: l, ?_⟩
    rw [List.map_cons, hv, allSome_cons_some, hl]
    rfl

/-! ## The aggregate record built for one group -/

/-- Full description of the aggregate record built for a group sharing one
/24 class on a sorted bounded list: the fallback is unreachable, the found
prefix lies in [24, 32], every member sits inside the reported block, and
the block has its exact nominal size. -/
lemma buildAgg_spec {c : Nat} {t : List Nat}
    (hsorted : List.Pairwise (fun a b => a ≤ b) (c :: t))
    (hbound : ∀ x ∈ c :: t, x < 2 ^ 32)
    (hcl : ∀ x ∈ c :: t, x &&& 0xFFFFFF00 = c &&& 0xFFFFFF00) :
    ∃ p, 24 ≤ p ∧ p ≤ 32 ∧
      buildAgg (c :: t) 24 =
        (int_to_ip (networkOf c p) ++ "/" ++ toString p,
          int_to_ip (networkOf c p), int_to_ip (broadcastOf c p),
          (c :: t).map int_to_ip, 2 ^ (32 - p),
          (((c :: t).map int_to_ip).length : ℚ) / ((2 ^ (32 - p) : Nat) : ℚ) * 100) ∧
      (∀ x ∈ c :: t, networkOf c p ≤ x ∧ x ≤ broadcastOf c p) ∧
      networkOf c p ≤ c ∧ broadcastOf c p < 2 ^ 32 ∧
      broadcastOf c p + 1 - networkOf c p = 2 ^ (32 - p) := by
  have hc32 : c < 2 ^ 32 := hbound c (List.mem_cons_self _ _)
  have hmin : pyMin (c :: t) = c :=
    pyMin_cons_of_lower (List.pairwise_cons.mp hsorted).1
  have hcov : coversAll (c :: t) (pyMin (c :: t)) 24 = true := by
    rw [hmin]
    exact coversAll_24_of_same_class hc32 hbound hcl
  obtain ⟨p, hp24, hp32, hpcov, _, hres⟩ := find_min_subnet_spec (by norm_num) hcov
  rw [hmin] at hpcov hres
  have hB : (0:Nat) < 2 ^ (32 - p) := pow_pos (by norm_num) _
  have hnw := networkOf_eq hc32 hp32
  have hbc := broadcastOf_eq hc32 hp32
  refine ⟨p, hp24, hp32, ?_, ?_, ?_, ?_, ?_⟩
  · unfold buildAgg
    rw [hres]
    have hsize : calculate_subnet_size p = 2 ^ (32 - p) := by
      unfold calculate_subnet_size
      rw [if_neg (by omega)]
    dsimp only
    rw [hsize]
  · intro x hx
    have := List.all_eq_true.mp hpcov x hx
    rwa [decide_eq_true_eq] at this
  · rw [hnw]
    exact Nat.mul_div_le c (2 ^ (32 - p))
  · rw [hbc]
    have hsplit : (2:Nat) ^ (32 - p) * 2 ^ p = 2 ^ 32 := by
      rw [← pow_add]
      congr 1
      omega
    have hq : c / 2 ^ (32 - p) < 2 ^ p := Nat.div_lt_of_lt_mul (by omega)
    have hq1 : c / 2 ^ (32 - p) + 1 ≤ 2 ^ p := Nat.succ_le_of_lt hq
    have hmul : 2 ^ (32 - p) * (c / 2 ^ (32 - p) + 1) ≤ 2 ^ (32 - p) * 2 ^ p :=
      Nat.mul_le_mul_left _ hq1
    rw [Nat.mul_succ] at hmul
    omega
  · rw [hnw, hbc]
    omega

/-- A duplicate-free list inside an interval of size `B` has at most `B`
elements. -/
lemma length_le_of_nodup_in_range {g : List Nat} {lo hi : Nat} (hnd : g.Nodup)
    (hin : ∀ x ∈ g, lo ≤ x ∧ x ≤ hi) : g.length ≤ hi + 1 - lo := by
  have hsub : g.toFinset ⊆ Finset.Icc lo hi := by
    intro x hx
    rw [List.mem_toFinset] at hx
    rw [Finset.mem_Icc]
    exact hin x hx
  calc g.length = g.toFinset.card := (List.toFinset_card_of_nodup hnd).symm
  _ ≤ (Finset.Icc lo hi).card := Finset.card_le_card hsub
  _ = hi + 1 - lo := Nat.card_Icc lo hi

/-! ## Generic conversion-list facts -/

/-- `allSome` preserves length. -/
lemma allSome_length : ∀ {xs : List (Option Nat)} {l : List Nat},
    allSome xs = some l → l.length = xs.length := by
  intro xs
  induction xs with
  | nil =>
    intro l h
    injection h with h
    subst h
    rfl
  | cons o xs ih =>
    intro l h
    cases o with
    | none => exact absurd h (by simp [allSome])
    | some v =>
      rw [allSome_cons_some] at h
      cases hrec : allSome xs with
      | none => rw [hrec] at h; exact absurd h (by simp)
      | some vs =>
        rw [hrec] at h
        simp only [Option.map_some'] at h
        injection h with h
        subst h
        simp [ih hrec]

/-- A list of present options converts as a whole. -/
lemma allSome_of_all_isSome {xs : List (Option Nat)}
    (h : ∀ o ∈ xs, o.isSome = true) : ∃ l, allSome xs = some l := by
  induction xs with
  | nil => exact ⟨[], rfl⟩
  | cons o xs ih =>
    obtain ⟨l, hl⟩ := ih (fun t ht => h t (List.mem_cons_of_mem _ ht))
    obtain ⟨v, hv⟩ := Option.isSome_iff_exists.mp (h o (List.mem_cons_self _ _))
    subst hv
    exact ⟨v :: l, by rw [allSome_cons_some, hl]; rfl⟩

/-- Permuting the input strings permutes the parsed values (or both sides
fail to parse). -/
lemma allSome_map_perm {l₁ l₂ : List String} (h : l₁.Perm l₂) :
    (allSome (l₁.map ip_to_int) = none ∧ allSome (l₂.map ip_to_int) = none) ∨
    (∃ v₁ v₂, allSome (l₁.map ip_to_int) = some v₁ ∧
      allSome (l₂.map ip_to_int) = some v₂ ∧ v₁.Perm v₂) := by
  induction h with
  | nil => exact Or.inr ⟨[], [], rfl, rfl, List.Perm.nil⟩
  | cons x h ih =>
    cases hx : ip_to_int x with
    | none =>
      left
      constructor <;> simp [allSome, hx]
    | some v =>
      rcases ih with ⟨h1, h2⟩ | ⟨v₁, v₂, h1, h2, hp⟩
      · left
        constructor <;> simp [allSome_cons_some, hx, h1, h2]
      · right
        refine ⟨v :: v₁, v :: v₂, ?_, ?_, hp.cons v⟩
        · rw [List.map_cons, hx, allSome_cons_some, h1]
          rfl
        · rw [List.map_cons, hx, allSome_cons_some, h2]
          rfl
  | swap x y l =>
    cases hx : ip_to_int x with
    | none =>
      cases hy : ip_to_int y with
      | none => left; constructor <;> simp [allSome, hx, hy]
      | some w =>
        left
        constructor <;> simp [allSome, allSome_cons_some, hx, hy]
    | some v =>
      cases hy : ip_to_int y with
      | none => left; constructor <;> simp [allSome, allSome_cons_some, hx, hy]
      | some w =>
        cases hrec : allSome (l.map ip_to_int) with
        | none =>
          left
          constructor <;> simp [allSome_cons_some, hx, hy, hrec]
        | some vs =>
          right
          refine ⟨w :: v :: vs, v :: w :: vs, ?_, ?_, List.Perm.swap v w vs⟩
          · rw [List.map_cons, List.map_cons, hy, hx, allSome_cons_some,
              allSome_cons_some, hrec]
            rfl
          · rw [List.map_cons, List.map_cons, hx, hy, allSome_cons_some,
              allSome_cons_some, hrec]
            rfl
  | trans h1 h2 ih1 ih2 =>
    rcases ih1 with ⟨a1, a2⟩ | ⟨v₁, v₂, a1, a2, hp12⟩
    · rcases ih2 with ⟨b1, b2⟩ | ⟨w₂, w₃, b1, b2, _⟩
      · exact Or.inl ⟨a1, b2⟩
      · rw [a2] at b1
        exact absurd b1 (by simp)
    · rcases ih2 with ⟨b1, b2⟩ | ⟨w₂, w₃, b1, b2, hp23⟩
      · rw [a2] at b1
        exact absurd b1.symm (by simp)
      · rw [a2] at b1
        injection b1 with b1
        subst b1
        exact Or.inr ⟨v₁, w₃, a1, b2, hp12.trans hp23⟩

/-! ## Claim theorems -/

/-- Claim C1, counterexample to the claim as stated: on the group
{192.168.1.10, 192.168.1.12} with floor 24, `find_min_subnet` returns
prefix length 29, although the strictly smaller prefix length 24 also
satisfies the containment test — so the returned prefix is NOT the
smallest covering prefix length in [floor, 32]. -/
theorem C1_counterexample :
    (find_min_subnet [3232235786, 3232235788] 24).2.2.2 = 29 ∧
    coversAll [3232235786, 3232235788] (pyMin [3232235786, 3232235788]) 24 = true ∧
    (24 : Nat) < 29 := by
  refine ⟨?_, ?_, ?_⟩ <;> decide

/-- Claim C1 (amended): for every non-empty address list and floor prefix
at most 32 whose floor block covers every address, `find_min_subnet`
returns the LARGEST prefix length P with floor ≤ P ≤ 32 such that the
block of size 2^(32-P) aligned on the minimum address contains every
address in the list, together with that block's network and broadcast
addresses and the CIDR text `format(network)+"/"+P`. -/
theorem C1_find_min_subnet_largest_cover (ips_int : List Nat) ( min_prefix : Nat)
    (hne : ips_int ≠ []) (hmp : min_prefix ≤ 32)
    (hcov : coversAll ips_int (pyMin ips_int) min_prefix = true) :
    ∃ p, min_prefix ≤ p ∧ p ≤ 32 ∧
      coversAll ips_int (pyMin ips_int) p = true ∧
      (∀ q < 33, p < q → coversAll ips_int (pyMin ips_int) q = false) ∧
      find_min_subnet ips_int min_prefix =
        (int_to_ip (networkOf (pyMin ips_int) p) ++ "/" ++ toString p,
          int_to_ip (networkOf (pyMin ips_int) p),
          int_to_ip (broadcastOf (pyMin ips_int) p), p) := by
  obtain ⟨p, h1, h2, h3, h4, h5⟩ := find_min_subnet_spec hmp hcov
  exact ⟨p, h1, h2, h3, fun q hq33 hpq => h4 q hpq (by omega), h5⟩

/-- Witness for the amended C1 at the concrete counterexample group. -/
theorem C1_witness :
    ([3232235786, 3232235788] : List Nat) ≠ [] ∧ (24 : Nat) ≤ 32 ∧
    coversAll [3232235786, 3232235788] (pyMin [3232235786, 3232235788]) 24 = true ∧
    (∃ p, 24 ≤ p ∧ p ≤ 32 ∧
      coversAll [3232235786, 3232235788] (pyMin [3232235786, 3232235788]) p = true ∧
      (∀ q < 33, p < q →
        coversAll [3232235786, 3232235788] (pyMin [3232235786, 3232235788]) q = false) ∧
      find_min_subnet [3232235786, 3232235788] 24 =
        (int_to_ip (networkOf (pyMin [3232235786, 3232235788]) p) ++ "/" ++ toString p,
          int_to_ip (networkOf (pyMin [3232235786, 3232235788]) p),
          int_to_ip (broadcastOf (pyMin [3232235786, 3232235788]) p), p)) :=
  ⟨by decide, by decide, by decide,
    C1_find_min_subnet_largest_cover _ 24 (by decide) (by decide) (by decide)⟩

/-- Claim C8: when no prefix length in [floor, 32] passes the containment
test, `find_min_subnet` falls back to returning prefix exactly equal to
the floor, with network = minimum AND the floor's mask and the
corresponding broadcast, unconditionally. -/
theorem C8_fallback_returns_floor (ips_int : List Nat) ( min_prefix : Nat)
    (hne : ips_int ≠ []) (hmp : min_prefix ≤ 32)
    (hnone : ∀ q < 33, min_prefix ≤ q →
      coversAll ips_int (pyMin ips_int) q = false) :
    find_min_subnet ips_int min_prefix =
      (int_to_ip (networkOf (pyMin ips_int) min_prefix) ++ "/" ++ toString min_prefix,
        int_to_ip (networkOf (pyMin ips_int) min_prefix),
        int_to_ip (broadcastOf (pyMin ips_int) min_prefix), min_prefix) :=
  find_min_subnet_fallback hmp (fun q hq1 hq2 => hnone q (by omega) hq1)

/-- Witness for C8: floor 28 with the spread pair {10.0.0.1, 10.0.1.1}
forces the fallback to exactly prefix 28. -/
theorem C8_witness :
    ([167772161, 167772417] : List Nat) ≠ [] ∧ (28 : Nat) ≤ 32 ∧
    (∀ q < 33, 28 ≤ q →
      coversAll [167772161, 167772417] (pyMin [167772161, 167772417]) q = false) ∧
    find_min_subnet [167772161, 167772417] 28 =
      (int_to_ip (networkOf (pyMin [167772161, 167772417]) 28) ++ "/" ++ toString 28,
        int_to_ip (networkOf (pyMin [167772161, 167772417]) 28),
        int_to_ip (broadcastOf (pyMin [167772161, 167772417]) 28), 28) :=
  ⟨by decide, by decide, by decide,
    C8_fallback_returns_floor _ 28 (by decide) (by decide) (by decide)⟩

/-- Claim C7, counterexample to the claim as stated: "0.0.0.00" has four
dot-separated numeric components all in [0, 255], yet
`int_to_ip (ip_to_int "0.0.0.00")` is "0.0.0.0", not "0.0.0.00" — the
textual round trip fails on well-formed but non-canonical spellings. -/
theorem C7_counterexample :
    wellFormedQuad "0.0.0.00" = true ∧ ip_to_int "0.0.0.00" = some 0 ∧
    int_to_ip 0 = "0.0.0.0" ∧ "0.0.0.0" ≠ "0.0.0.00" := by
  refine ⟨?_, ?_, ?_, ?_⟩ <;> decide

/-- Claim C7 (amended): for every 32-bit value `a`,
`ip_to_int (int_to_ip a) = a`; and for every CANONICAL dotted quad — four
dot-separated octets in [0, 255] written in canonical decimal, without
leading zeros — `int_to_ip (ip_to_int s) = s`. -/
theorem C7_codec_roundtrip (a : Nat) (s : String) (ha : a < 2 ^ 32)
    (hs : canonicalQuad s = true) :
    ip_to_int (int_to_ip a) = some a ∧
    ∃ v, ip_to_int s = some v ∧ int_to_ip v = s := by
  refine ⟨ip_to_int_int_to_ip ha, ?_⟩
  obtain ⟨v, h1, _, h3⟩ := canonicalQuad_spec hs
  exact ⟨v, h1, h3⟩

/-- Witness for the amended C7 on a concrete address and string. -/
theorem C7_witness :
    3232235786 < 2 ^ 32 ∧ canonicalQuad "192.168.1.10" = true ∧
    (ip_to_int (int_to_ip 3232235786) = some 3232235786 ∧
      ∃ v, ip_to_int "192.168.1.10" = some v ∧ int_to_ip v = "192.168.1.10") :=
  ⟨by decide, by decide, C7_codec_roundtrip 3232235786 "192.168.1.10" (by decide) (by decide)⟩

/-- Claim C9, counterexample to the claim as stated: "1.2.3.400" does not
consist of four components in [0, 255] (400 > 255), yet `ip_to_int`
returns a value instead of failing — the source performs no range check. -/
theorem C9_counterexample :
    wellFormedQuad "1.2.3.400" = false ∧ ip_to_int "1.2.3.400" = some 16909200 := by
  constructor <;> decide

/-- Claim C9 (amended): `ip_to_int` fails (raises) on input with fewer
than four dot-separated components, while any string with at least four
numeric components is accepted and produces a value, even when components
exceed 255 or extra components are present.  No `FormatError`-style
rejection of out-of-range octets or extra components exists.  (Nothing is
asserted about non-numeric components: Python's `int` accepts more numeral
forms — signs, surrounding whitespace, underscores, non-ASCII digits —
than the model's `pyInt?`, so a faithful failure statement for that case
is not available.) -/
theorem C9_parse_failure_behaviour (s : String) :
    ((splitDot s.data).length < 4 → ip_to_int s = none) ∧
    ((∀ c ∈ splitDot s.data, (pyInt? c).isSome = true) →
      4 ≤ (splitDot s.data).length → (ip_to_int s).isSome = true) := by
  constructor
  · intro hlen
    unfold ip_to_int
    cases happ : allSome ((splitDot s.data).map pyInt?) with
    | none => rfl
    | some l =>
      have hlen2 : l.length < 4 := by
        rw [allSome_length happ, List.length_map]
        exact hlen
      rcases l with _ | ⟨o0, _ | ⟨o1, _ | ⟨o2, _ | ⟨o3, rest⟩⟩⟩⟩
      · rfl
      · rfl
      · rfl
      · rfl
      · rw [List.length_cons, List.length_cons, List.length_cons, List.length_cons] at hlen2
        omega
  · intro hnum hge
    obtain ⟨l, hl⟩ := @allSome_of_all_isSome ((splitDot s.data).map pyInt?) (by
      intro o ho
      obtain ⟨cmp, hcmp, rfl⟩ := List.mem_map.mp ho
      exact hnum cmp hcmp)
    have hlen4 : 4 ≤ l.length := by
      rw [allSome_length hl, List.length_map]
      exact hge
    unfold ip_to_int
    rw [hl]
    rcases l with _ | ⟨o0, _ | ⟨o1, _ | ⟨o2, _ | ⟨o3, rest⟩⟩⟩⟩
    · rw [List.length_nil] at hlen4
      omega
    · rw [List.length_cons, List.length_nil] at hlen4
      omega
    · rw [List.length_cons, List.length_cons, List.length_nil] at hlen4
      omega
    · rw [List.length_cons, List.length_cons, List.length_cons, List.length_nil] at hlen4
      omega
    · rfl

/-- Witness for the amended C9: "1.2.3" (three components) fails;
"1.2.3.400" (four numeric components, one out of range) succeeds. -/
theorem C9_witness :
    ((splitDot ("1.2.3" : String).data).length < 4 ∧ ip_to_int "1.2.3" = none) ∧
    ((∀ c ∈ splitDot ("1.2.3.400" : String).data, (pyInt? c).isSome = true) ∧
      4 ≤ (splitDot ("1.2.3.400" : String).data).length ∧
      (ip_to_int "1.2.3.400").isSome = true) :=
  ⟨⟨by decide, (C9_parse_failure_behaviour "1.2.3").1 (by decide)⟩,
    ⟨by decide, by decide,
      (C9_parse_failure_behaviour "1.2.3.400").2 (by decide) (by decide)⟩⟩

/-- Claim C10: a string of five or more dot-separated numeric components
parses without error, to the value computed from the first four components
alone; the extra components are silently ignored.  In particular
`ip_to_int "1.2.3.4.5" = ip_to_int "1.2.3.4"`. -/
theorem C10_extra_components_ignored (s : String) (c0 c1 c2 c3 : List Char)
    (rest : List (List Char))
    (hsplit : splitDot s.data = c0 :: c1 :: c2 :: c3 :: rest) (hrest : rest ≠ [])
    (hnum : ∀ c ∈ splitDot s.data, (pyInt? c).isSome = true) :
    (∃ o0 o1 o2 o3, pyInt? c0 = some o0 ∧ pyInt? c1 = some o1 ∧
      pyInt? c2 = some o2 ∧ pyInt? c3 = some o3 ∧
      ip_to_int s = some ((((o0 <<< 24) ||| (o1 <<< 16)) ||| (o2 <<< 8)) ||| o3)) ∧
    ip_to_int "1.2.3.4.5" = ip_to_int "1.2.3.4" := by
  constructor
  · have h0 := hnum c0 (by rw [hsplit]; simp)
    have h1 := hnum c1 (by rw [hsplit]; simp)
    have h2 := hnum c2 (by rw [hsplit]; simp)
    have h3 := hnum c3 (by rw [hsplit]; simp)
    obtain ⟨o0, ho0⟩ := Option.isSome_iff_exists.mp h0
    obtain ⟨o1, ho1⟩ := Option.isSome_iff_exists.mp h1
    obtain ⟨o2, ho2⟩ := Option.isSome_iff_exists.mp h2
    obtain ⟨o3, ho3⟩ := Option.isSome_iff_exists.mp h3
    obtain ⟨lrest, hlrest⟩ := @allSome_of_all_isSome (rest.map pyInt?) (by
      intro o ho
      obtain ⟨cmp, hcmp, rfl⟩ := List.mem_map.mp ho
      exact hnum cmp (by rw [hsplit]; simp [hcmp]))
    refine ⟨o0, o1, o2, o3, ho0, ho1, ho2, ho3, ?_⟩
    unfold ip_to_int
    rw [hsplit, List.map_cons, List.map_cons, List.map_cons, List.map_cons,
      ho0, ho1, ho2, ho3, allSome_cons_some, allSome_cons_some, allSome_cons_some,
      allSome_cons_some, hlrest]
    rfl
  · decide

/-- Witness for C10 at "1.2.3.4.5". -/
theorem C10_witness :
    splitDot ("1.2.3.4.5" : String).data =
      [['1'], ['2'], ['3'], ['4'], ['5']] ∧
    ([['5']] : List (List Char)) ≠ [] ∧
    (∀ c ∈ splitDot ("1.2.3.4.5" : String).data, (pyInt? c).isSome = true) ∧
    ((∃ o0 o1 o2 o3, pyInt? ['1'] = some o0 ∧ pyInt? ['2'] = some o1 ∧
      pyInt? ['3'] = some o2 ∧ pyInt? ['4'] = some o3 ∧
      ip_to_int "1.2.3.4.5" =
        some ((((o0 <<< 24) ||| (o1 <<< 16)) ||| (o2 <<< 8)) ||| o3)) ∧
    ip_to_int "1.2.3.4.5" = ip_to_int "1.2.3.4") :=
  ⟨by decide, by decide, by decide,
    C10_extra_components_ignored "1.2.3.4.5" ['1'] ['2'] ['3'] ['4'] [['5']]
      (by decide) (by decide) (by decide)⟩

/-- Claim C6: `split_subnets` is deterministic and depends only on the
sorted numeric order of its input — permuting the input list leaves the
output pair (aggregates, singletons) unchanged, for every floor prefix. -/
theorem C6_permutation_invariant (l₁ l₂ : List String) ( min_prefix : Nat)
    (h : l₁.Perm l₂) :
    split_subnets l₁ min_prefix = split_subnets l₂ min_prefix := by
  unfold split_subnets
  rcases allSome_map_perm h with ⟨h1, h2⟩ | ⟨v₁, v₂, h1, h2, hp⟩
  · rw [h1, h2]
  · rw [h1, h2]
    have hs : v₁.insertionSort (· ≤ ·) = v₂.insertionSort (· ≤ ·) :=
      List.eq_of_perm_of_sorted
        ((List.perm_insertionSort _ _).trans (hp.trans (List.perm_insertionSort _ _).symm))
        (List.sorted_insertionSort _ _) (List.sorted_insertionSort _ _)
    dsimp only
    rw [hs, hp.length_eq]

/-- Witness for C6 on a two-element permutation. -/
theorem C6_witness :
    (["2.2.2.2", "1.1.1.1"] : List String).Perm ["1.1.1.1", "2.2.2.2"] ∧
    split_subnets ["2.2.2.2", "1.1.1.1"] 24 = split_subnets ["1.1.1.1", "2.2.2.2"] 24 :=
  ⟨by decide, C6_permutation_invariant _ _ 24 (by decide)⟩

/-- Claim C2: for well-formed dotted-quad input, every aggregate produced
by `split_subnets` with floor 24 has all member addresses lying within
[networkAddress, broadcastAddress] of its reported block (the record's
start and end fields); the floor-fallback path is unreachable because every
group shares one /24. -/
theorem C2_members_within_reported_block (ips : List String)
    (aggs : List AggRecord) (singles : List String)
    (hwf : ∀ s ∈ ips, wellFormedQuad s = true)
    (hout : split_subnets ips 24 = some (aggs, singles)) :
    ∀ a ∈ aggs, ∃ nw bc, ip_to_int a.2.1 = some nw ∧ ip_to_int a.2.2.1 = some bc ∧
      ∀ m ∈ a.2.2.2.1, ∃ v, ip_to_int m = some v ∧ nw ≤ v ∧ v ≤ bc := by
  unfold split_subnets at hout
  cases happ : allSome (ips.map ip_to_int) with
  | none => rw [happ] at hout; exact absurd hout (by simp)
  | some l =>
    rw [happ] at hout
    injection hout with hout
    rw [splitLoopF_eq_assemble, Prod.mk.injEq] at hout
    obtain ⟨ha, hsg⟩ := hout
    subst ha
    subst hsg
    have hb : ∀ x ∈ l, x < 2 ^ 32 := allSome_map_bounds hwf happ
    have hperm : (l.insertionSort (· ≤ ·)).Perm l := List.perm_insertionSort _ _
    have hsort : List.Pairwise (fun a b => a ≤ b) (l.insertionSort (· ≤ ·)) :=
      List.sorted_insertionSort _ _
    have hbs : ∀ x ∈ l.insertionSort (· ≤ ·), x < 2 ^ 32 :=
      fun x hx => hb x (hperm.subset hx)
    have hlen : (l.insertionSort (· ≤ ·)).length ≤ l.length := le_of_eq hperm.length_eq
    intro a hamem
    obtain ⟨g, hg, hne1, rfl⟩ := mem_assembleAggs.mp hamem
    obtain ⟨hsubl, c, t, rfl, hclass⟩ :=
      greedyGroups_groups l.length (l.insertionSort (· ≤ ·)) hlen hsort hbs g hg
    have hgsort : List.Pairwise (fun a b => a ≤ b) (c :: t) :=
      List.Pairwise.sublist hsubl hsort
    have hgb : ∀ x ∈ c :: t, x < 2 ^ 32 := fun x hx => hbs x (hsubl.subset hx)
    obtain ⟨p, hp24, hp32, heq, hcontain, hnwle, hbclt, hsize⟩ :=
      buildAgg_spec hgsort hgb hclass
    have hc32 : c < 2 ^ 32 := hgb c (List.mem_cons_self _ _)
    have hnw32 : networkOf c p < 2 ^ 32 := lt_of_le_of_lt hnwle hc32
    rw [heq]
    refine ⟨networkOf c p, broadcastOf c p, ip_to_int_int_to_ip hnw32,
      ip_to_int_int_to_ip hbclt, ?_⟩
    intro m hm
    obtain ⟨x, hx, rfl⟩ := List.mem_map.mp hm
    exact ⟨x, ip_to_int_int_to_ip (hgb x hx), (hcontain x hx).1, (hcontain x hx).2⟩

/-- Witness for C2 on a three-address /24 group. -/
theorem C2_witness :
    (∀ s ∈ (["192.168.1.10", "192.168.1.11", "192.168.1.12"] : List String),
      wellFormedQuad s = true) ∧
    split_subnets ["192.168.1.10", "192.168.1.11", "192.168.1.12"] 24 =
      some ([("192.168.1.8/29", "192.168.1.8", "192.168.1.15",
        ["192.168.1.10", "192.168.1.11", "192.168.1.12"], 8, 75 / 2)], []) ∧
    ∀ a ∈ [(("192.168.1.8/29", "192.168.1.8", "192.168.1.15",
        ["192.168.1.10", "192.168.1.11", "192.168.1.12"], 8, 75 / 2) : AggRecord)],
      ∃ nw bc, ip_to_int a.2.1 = some nw ∧ ip_to_int a.2.2.1 = some bc ∧
        ∀ m ∈ a.2.2.2.1, ∃ v, ip_to_int m = some v ∧ nw ≤ v ∧ v ≤ bc :=
  ⟨by decide, by decide,
    C2_members_within_reported_block ["192.168.1.10", "192.168.1.11", "192.168.1.12"]
      [("192.168.1.8/29", "192.168.1.8", "192.168.1.15",
        ["192.168.1.10", "192.168.1.11", "192.168.1.12"], 8, 75 / 2)] []
      (by decide) (by decide)⟩

/-- Claim C3: for canonical dotted-quad input, the multiset union of all
aggregate member addresses and all singleton entries returned by
`split_subnets` equals the input multiset exactly — nothing lost, nothing
duplicated across groups. -/
theorem C3_partition_completeness (ips : List String)
    (aggs : List AggRecord) (singles : List String)
    (hcan : ∀ s ∈ ips, canonicalQuad s = true)
    (hout : split_subnets ips 24 = some (aggs, singles)) :
    ((aggs.flatMap (fun a => a.2.2.2.1)) ++ singles).Perm ips := by
  unfold split_subnets at hout
  cases happ : allSome (ips.map ip_to_int) with
  | none => rw [happ] at hout; exact absurd hout (by simp)
  | some l =>
    rw [happ] at hout
    injection hout with hout
    rw [splitLoopF_eq_assemble, Prod.mk.injEq] at hout
    obtain ⟨ha, hsg⟩ := hout
    subst ha
    subst hsg
    obtain ⟨hmap, hb⟩ := allSome_map_render hcan happ
    have hperm : (l.insertionSort (· ≤ ·)).Perm l := List.perm_insertionSort _ _
    have hsort : List.Pairwise (fun a b => a ≤ b) (l.insertionSort (· ≤ ·)) :=
      List.sorted_insertionSort _ _
    have hbs : ∀ x ∈ l.insertionSort (· ≤ ·), x < 2 ^ 32 :=
      fun x hx => hb x (hperm.subset hx)
    have hlen : (l.insertionSort (· ≤ ·)).length ≤ l.length := le_of_eq hperm.length_eq
    have h1 := assemble_perm (greedyGroupsF l.length (l.insertionSort (· ≤ ·))) 24
    rw [greedyGroups_flatten l.length (l.insertionSort (· ≤ ·)) hlen hsort hbs] at h1
    have h2 : (List.map int_to_ip (l.insertionSort (· ≤ ·))).Perm (List.map int_to_ip l) :=
      hperm.map _
    exact h1.trans (hmap ▸ h2)

/-- Witness for C3 on a three-address /24 group. -/
theorem C3_witness :
    (∀ s ∈ (["192.168.1.10", "192.168.1.11", "192.168.1.12"] : List String),
      canonicalQuad s = true) ∧
    split_subnets ["192.168.1.10", "192.168.1.11", "192.168.1.12"] 24 =
      some ([("192.168.1.8/29", "192.168.1.8", "192.168.1.15",
        ["192.168.1.10", "192.168.1.11", "192.168.1.12"], 8, 75 / 2)], []) ∧
    (([(("192.168.1.8/29", "192.168.1.8", "192.168.1.15",
        ["192.168.1.10", "192.168.1.11", "192.168.1.12"], 8, 75 / 2) : AggRecord)].flatMap
        (fun a => a.2.2.2.1)) ++ []).Perm
      ["192.168.1.10", "192.168.1.11", "192.168.1.12"] :=
  ⟨by decide, by decide,
    C3_partition_completeness ["192.168.1.10", "192.168.1.11", "192.168.1.12"]
      [("192.168.1.8/29", "192.168.1.8", "192.168.1.15",
        ["192.168.1.10", "192.168.1.11", "192.168.1.12"], 8, 75 / 2)] []
      (by decide) (by decide)⟩

/-- Claim C4, counterexample to the claim as stated: the duplicated input
["1.1.1.1", "1.1.1.1"] produces one aggregate whose occupancy ratio is
200 — duplicates are counted as separate members, so the ratio exceeds
100. -/
theorem C4_counterexample :
    split_subnets ["1.1.1.1", "1.1.1.1"] 24 =
      some ([("1.1.1.1/32", "1.1.1.1", "1.1.1.1", ["1.1.1.1", "1.1.1.1"], 1, 200)], []) ∧
    ¬ ((200 : ℚ) ≤ 100) := by
  constructor
  · decide
  · decide

/-- Claim C4 (amended): for well-formed input containing no duplicate
address value, every aggregate produced by `split_subnets` with floor 24
has occupancy ratio r with 0 < r ≤ 100 (with duplicates the ratio can
exceed 100, since members are counted with multiplicity). -/
theorem C4_ratio_bounds (ips : List String) (l : List Nat)
    (aggs : List AggRecord) (singles : List String)
    (hwf : ∀ s ∈ ips, wellFormedQuad s = true)
    (hparse : allSome (ips.map ip_to_int) = some l)
    (hnd : l.Nodup)
    (hout : split_subnets ips 24 = some (aggs, singles)) :
    ∀ a ∈ aggs, 0 < a.2.2.2.2.2 ∧ a.2.2.2.2.2 ≤ 100 := by
  unfold split_subnets at hout
  rw [hparse] at hout
  injection hout with hout
  rw [splitLoopF_eq_assemble, Prod.mk.injEq] at hout
  obtain ⟨ha, hsg⟩ := hout
  subst ha
  subst hsg
  have hb : ∀ x ∈ l, x < 2 ^ 32 := allSome_map_bounds hwf hparse
  have hperm : (l.insertionSort (· ≤ ·)).Perm l := List.perm_insertionSort _ _
  have hsort : List.Pairwise (fun a b => a ≤ b) (l.insertionSort (· ≤ ·)) :=
    List.sorted_insertionSort _ _
  have hbs : ∀ x ∈ l.insertionSort (· ≤ ·), x < 2 ^ 32 :=
    fun x hx => hb x (hperm.subset hx)
  have hlen : (l.insertionSort (· ≤ ·)).length ≤ l.length := le_of_eq hperm.length_eq
  have hsnd : (l.insertionSort (· ≤ ·)).Nodup := hperm.nodup_iff.mpr hnd
  intro a hamem
  obtain ⟨g, hg, hne1, rfl⟩ := mem_assembleAggs.mp hamem
  obtain ⟨hsubl, c, t, rfl, hclass⟩ :=
    greedyGroups_groups l.length (l.insertionSort (· ≤ ·)) hlen hsort hbs g hg
  have hgsort : List.Pairwise (fun a b => a ≤ b) (c :: t) :=
    List.Pairwise.sublist hsubl hsort
  have hgb : ∀ x ∈ c :: t, x < 2 ^ 32 := fun x hx => hbs x (hsubl.subset hx)
  have hgnd : (c :: t).Nodup := hsubl.nodup hsnd
  obtain ⟨p, hp24, hp32, heq, hcontain, _, _, hsize⟩ :=
    buildAgg_spec hgsort hgb hclass
  have hcount : (c :: t).length ≤ 2 ^ (32 - p) := by
    have := length_le_of_nodup_in_range hgnd
      (fun x hx => ⟨(hcontain x hx).1, (hcontain x hx).2⟩)
    omega
  have hB : (0:Nat) < 2 ^ (32 - p) := pow_pos (by norm_num) _
  rw [heq]
  show 0 < (((c :: t).map int_to_ip).length : ℚ) / ((2 ^ (32 - p) : Nat) : ℚ) * 100 ∧
    (((c :: t).map int_to_ip).length : ℚ) / ((2 ^ (32 - p) : Nat) : ℚ) * 100 ≤ 100
  rw [List.length_map]
  have hnq : (0:ℚ) < ((c :: t).length : ℚ) := by
    rw [List.length_cons]
    exact_mod_cast Nat.succ_pos _
  have hBq : (0:ℚ) < ((2 ^ (32 - p) : Nat) : ℚ) := by
    exact_mod_cast hB
  constructor
  · exact mul_pos (div_pos hnq hBq) (by norm_num)
  · have hle : ((c :: t).length : ℚ) ≤ ((2 ^ (32 - p) : Nat) : ℚ) := by
      exact_mod_cast hcount
    calc ((c :: t).length : ℚ) / ((2 ^ (32 - p) : Nat) : ℚ) * 100
        ≤ 1 * 100 :=
          mul_le_mul_of_nonneg_right ((div_le_one hBq).mpr hle) (by norm_num)
      _ = 100 := one_mul _

/-- Witness for the amended C4 on a duplicate-free three-address group. -/
theorem C4_witness :
    (∀ s ∈ (["192.168.1.10", "192.168.1.11", "192.168.1.12"] : List String),
      wellFormedQuad s = true) ∧
    allSome ((["192.168.1.10", "192.168.1.11", "192.168.1.12"] : List String).map ip_to_int) =
      some [3232235786, 3232235787, 3232235788] ∧
    ([3232235786, 3232235787, 3232235788] : List Nat).Nodup ∧
    split_subnets ["192.168.1.10", "192.168.1.11", "192.168.1.12"] 24 =
      some ([("192.168.1.8/29", "192.168.1.8", "192.168.1.15",
        ["192.168.1.10", "192.168.1.11", "192.168.1.12"], 8, 75 / 2)], []) ∧
    ∀ a ∈ [(("192.168.1.8/29", "192.168.1.8", "192.168.1.15",
        ["192.168.1.10", "192.168.1.11", "192.168.1.12"], 8, 75 / 2) : AggRecord)],
      0 < a.2.2.2.2.2 ∧ a.2.2.2.2.2 ≤ 100 :=
  ⟨by decide, by decide, by decide, by decide,
    C4_ratio_bounds ["192.168.1.10", "192.168.1.11", "192.168.1.12"]
      [3232235786, 3232235787, 3232235788]
      [("192.168.1.8/29", "192.168.1.8", "192.168.1.15",
        ["192.168.1.10", "192.168.1.11", "192.168.1.12"], 8, 75 / 2)] []
      (by decide) (by decide) (by decide) (by decide)⟩

/-- Claim C5: the greedy contiguous-run grouping performed by
`split_subnets` on the sorted address list coincides with the global
group-by /24 partition: each consumed group holds exactly the multiset of
all remaining addresses sharing the seed's /24 (same-class addresses are
contiguous in a sorted list), and `split_subnets` classifies exactly these
groups; each class's sorted group is a permutation of that class's members
of the raw parsed input. -/
theorem C5_greedy_grouping_equals_global (ips : List String) (l : List Nat)
    (hwf : ∀ s ∈ ips, wellFormedQuad s = true)
    (hparse : allSome (ips.map ip_to_int) = some l) :
    greedyGroupsF l.length (l.insertionSort (· ≤ ·)) =
      groupBy24Global (l.insertionSort (· ≤ ·)) ∧
    split_subnets ips 24 = some
      (assembleAggs (greedyGroupsF l.length (l.insertionSort (· ≤ ·))) 24,
        assembleSingles (greedyGroupsF l.length (l.insertionSort (· ≤ ·)))) ∧
    ∀ cl, ((l.insertionSort (· ≤ ·)).filter (fun ip => (ip &&& 0xFFFFFF00) == cl)).Perm
      (l.filter (fun ip => (ip &&& 0xFFFFFF00) == cl)) := by
  have hb : ∀ x ∈ l, x < 2 ^ 32 := allSome_map_bounds hwf hparse
  have hperm : (l.insertionSort (· ≤ ·)).Perm l := List.perm_insertionSort _ _
  have hsort : List.Pairwise (fun a b => a ≤ b) (l.insertionSort (· ≤ ·)) :=
    List.sorted_insertionSort _ _
  have hbs : ∀ x ∈ l.insertionSort (· ≤ ·), x < 2 ^ 32 :=
    fun x hx => hb x (hperm.subset hx)
  have hlen : (l.insertionSort (· ≤ ·)).length ≤ l.length := le_of_eq hperm.length_eq
  refine ⟨greedyGroups_eq_global l.length _ hlen hsort hbs, ?_, ?_⟩
  · unfold split_subnets
    rw [hparse]
    dsimp only
    rw [splitLoopF_eq_assemble]
  · intro cl
    exact List.Perm.filter _ hperm

/-- Witness for C5 on input spanning two /24 networks. -/
theorem C5_witness :
    (∀ s ∈ (["2.2.2.2", "1.1.1.1", "1.1.1.3"] : List String),
      wellFormedQuad s = true) ∧
    allSome ((["2.2.2.2", "1.1.1.1", "1.1.1.3"] : List String).map ip_to_int) =
      some [33686018, 16843009, 16843011] ∧
    (greedyGroupsF 3 ([33686018, 16843009, 16843011].insertionSort (· ≤ ·)) =
      groupBy24Global ([33686018, 16843009, 16843011].insertionSort (· ≤ ·)) ∧
    split_subnets ["2.2.2.2", "1.1.1.1", "1.1.1.3"] 24 = some
      (assembleAggs (greedyGroupsF 3
        ([33686018, 16843009, 16843011].insertionSort (· ≤ ·))) 24,
        assembleSingles (greedyGroupsF 3
          ([33686018, 16843009, 16843011].insertionSort (· ≤ ·)))) ∧
    ∀ cl, (([33686018, 16843009, 16843011].insertionSort (· ≤ ·)).filter
        (fun ip => (ip &&& 0xFFFFFF00) == cl)).Perm
      ([33686018, 16843009, 16843011].filter (fun ip => (ip &&& 0xFFFFFF00) == cl))) :=
  ⟨by decide, by decide,
    C5_greedy_grouping_equals_global ["2.2.2.2", "1.1.1.1", "1.1.1.3"]
      [33686018, 16843009, 16843011] (by decide) (by decide)⟩
